import Mathlib

/-!
Verification of the funding-information core of the `fund` command.

The repository ships `lib/fund.js` (the command: human rendering via
`printHuman`, the targeted-open path `openFundingUrl`, and the `fund`
entry point) together with the consumer tests of `lib/utils/funding.js`
(`getFundingInfo`, `retrieveFunding`, `validFundingField`).  The
implementation of `lib/utils/funding.js` itself is not part of the
sources at hand, so the aggregator and the normalization helpers are
modelled from the specification and checked against every consumer test
shipped with the repository.  `printHuman`, `openFundingUrl` and the
selector validation of `fund` are embedded directly from `lib/fund.js`.
-/

namespace Fund

/-! ## Funding entries and raw funding values -/

/-- A structured funding entry as it appears in package metadata:
an optional `url` field, an optional `type` field, and arbitrary further
fields which normalization must preserve verbatim. -/
structure Entry where
  url : Option String
  type : Option String
  extra : List (String × String)
deriving DecidableEq, Repr

mutual
/-- A raw `funding` declaration: a URL string shorthand, a structured
entry object, or an array of such values. -/
inductive FundVal where
  | str : String → FundVal
  | obj : Entry → FundVal
  | arr : FundList → FundVal
deriving DecidableEq, Repr

inductive FundList where
  | nil : FundList
  | cons : FundVal → FundList → FundList
deriving DecidableEq, Repr
end

def FundList.toList : FundList → List FundVal
  | .nil => []
  | .cons v r => v :: FundList.toList r

def FundList.ofList : List FundVal → FundList
  | [] => .nil
  | v :: r => .cons v (FundList.ofList r)

mutual
/-- Modelled from the spec: `normalize(value)` of §4.1 (the
`retrieveFunding` helper of `lib/utils/funding.js`, whose implementation
is not among the sources; its consumer tests are reproduced below).
A string becomes `{ url: value }`; an object passes through unchanged
with every field preserved; an array maps normalization over its
elements in order, duplicates preserved.  The absent case is handled by
`retrieveFundingO`. -/
def retrieveFunding : FundVal → FundVal
  | .str s => .obj ⟨some s, none, []⟩
  | .obj e => .obj e
  | .arr xs => .arr (retrieveFundingL xs)

def retrieveFundingL : FundList → FundList
  | .nil => .nil
  | .cons v r => .cons (retrieveFunding v) (retrieveFundingL r)
end

/-- Modelled from the spec: normalization of a possibly absent funding
declaration — absent input yields absent output. -/
def retrieveFundingO : Option FundVal → Option FundVal
  | none => none
  | some v => some (retrieveFunding v)

/-- Character-level leading-match test (kept structural so that
concrete runs evaluate inside the kernel). -/
def listStarts : List Char → List Char → Bool
  | [], _ => true
  | _ :: _, [] => false
  | p :: ps, c :: cs => p = c && listStarts ps cs

/-- Modelled from the spec and the consumer tests: the URL check inside
`validFundingField`.  The spec's §4.1 only asks for a non-empty string,
but the shipped test `missing fund nested items tree` requires the entry
`{ type: 'foo', url: 'git://example.git' }` to be discarded, so validity
additionally demands that the url parse as an `http:`/`https:` URL; the
WHATWG-URL parse plus protocol comparison is modelled as a scheme check
on the string. -/
def isHttpUrl (u : String) : Bool :=
  listStarts "http://".data u.data || listStarts "https://".data u.data

/-- Modelled from the spec: `isValid(entry)` of §4.1
(`validFundingField` of `lib/utils/funding.js`): true only for an entry
object whose `url` field is a string accepted by the URL check. -/
def validFundingField : FundVal → Bool
  | .obj e =>
    match e.url with
    | some u => isHttpUrl u
    | none => false
  | _ => false

mutual
/-- Modelled from the spec: the per-entry valid funding sources of a raw
declaration — normalize, then keep the entries that pass
`validFundingField`, flattening array declarations. -/
def collectValid : FundVal → List Entry
  | .str s => if isHttpUrl s then [⟨some s, none, []⟩] else []
  | .obj e => if validFundingField (.obj e) then [e] else []
  | .arr xs => collectValidL xs

def collectValidL : FundList → List Entry
  | .nil => []
  | .cons v r => collectValid v ++ collectValidL r
end

/-- Modelled from the spec (§4.2, funding attachment): the funding value
stored on a retained aggregator node — `none` when no valid entry
remains, the single entry when exactly one remains, and the array of the
remaining entries when several do. -/
def fundingOfDecl : Option FundVal → Option FundVal
  | none => none
  | some v =>
    match collectValid v with
    | [] => none
    | [e] => some (.obj e)
    | es => some (.arr (FundList.ofList (es.map .obj)))

/-! ## The dependency graph supplied by the resolver -/

/-- Package metadata carried on a graph node (`node.package`). -/
structure Pkg where
  name : Option String
  version : Option String
  funding : Option FundVal
deriving DecidableEq, Repr

mutual
/-- A resolver graph node: its own `name`, a `path` (used as a fallback
identity for the root), optional `package` metadata, and the outgoing
edge collection `edgesOut`.  An edge maps an edge name to an optional
target node (`edge.to`); edges without a target are skipped by the
traversal. -/
inductive GNode where
  | mk : Option String → Option String → Option Pkg → GEdges → GNode
deriving Repr

inductive GEdges where
  | nil : GEdges
  | cons : String → Option GNode → GEdges → GEdges
deriving Repr
end

def GNode.name : GNode → Option String
  | .mk n _ _ _ => n

def GNode.path : GNode → Option String
  | .mk _ p _ _ => p

def GNode.package : GNode → Option Pkg
  | .mk _ _ pk _ => pk

def GNode.edges : GNode → GEdges
  | .mk _ _ _ es => es

mutual
def sizeN : GNode → Nat
  | .mk _ _ _ es => 1 + sizeE es

def sizeE : GEdges → Nat
  | .nil => 0
  | .cons _ none r => sizeE r
  | .cons _ (some n) r => sizeN n + sizeE r
end

/-- The (name, version) identity of a package, as used by the visited
set of the aggregation (§3, visited-set). -/
abbrev IdKey := Option String × Option String

def Pkg.idKey (p : Pkg) : IdKey := (p.name, p.version)

/-! ## The aggregated funding tree -/

mutual
/-- A node of the aggregated funding tree: an optional `name` (present
on the root and, in the renderer, filled in from the dependency key),
optional `version`, the normalized funding value when the package has
one, and an optional `dependencies` map (absent on leaves, mirroring the
absent `dependencies` property of the JavaScript objects). -/
inductive FTree where
  | mk : Option String → Option String → Option FundVal → Option FDeps → FTree
deriving Repr

/-- An ordered field map from dependency names to funding subtrees,
with JavaScript object-property semantics: assigning an existing key
replaces its value in place, assigning a fresh key appends. -/
inductive FDeps where
  | nil : FDeps
  | cons : String → FTree → FDeps → FDeps
deriving Repr
end

def FTree.name : FTree → Option String
  | .mk n _ _ _ => n

def FTree.version : FTree → Option String
  | .mk _ v _ _ => v

def FTree.funding : FTree → Option FundVal
  | .mk _ _ f _ => f

def FTree.deps : FTree → Option FDeps
  | .mk _ _ _ d => d

/-- `obj[k] = v` on an ordered field map: replace in place or append. -/
def FDeps.setk : FDeps → String → FTree → FDeps
  | .nil, k, v => .cons k v .nil
  | .cons k' t r, k, v =>
    if k' = k then .cons k' v r else .cons k' t (FDeps.setk r k v)

/-- `Object.assign(a, b)`: assign every field of `b` onto `a` in order. -/
def jsAssign : FDeps → FDeps → FDeps
  | a, .nil => a
  | a, .cons k t r => jsAssign (a.setk k t) r

def FDeps.hasKey : FDeps → String → Bool
  | .nil, _ => false
  | .cons k' _ r, k => k' = k || FDeps.hasKey r k

def FDeps.keys : FDeps → List String
  | .nil => []
  | .cons k _ r => k :: FDeps.keys r

def FDeps.isNil : FDeps → Bool
  | .nil => true
  | .cons _ _ _ => false

/-- `hasDependencies` / conditional attachment: a child's `dependencies`
property is only created when the collected map is non-empty. -/
def optDeps (d : FDeps) : Option FDeps :=
  if d.isNil then none else some d

/-- The aggregator's result: top-level `name` (root name, falling back
to the root's path, else null), the root's `version` and normalized
`funding` when present, the pruned `dependencies` tree, and the funded
package count `length`. -/
structure FundingInfo where
  name : Option String
  version : Option String
  funding : Option FundVal
  dependencies : FDeps
  length : Nat
deriving Repr

/-! ## The aggregation traversal (modelled from the spec) -/

/-- A direct dependency retained by the marking phase: its edge name,
its package version, its normalized-and-filtered funding value, and its
own outgoing edges, into which the traversal recurses. -/
structure MItem where
  key : String
  version : Option String
  funding : Option FundVal
  edges : GEdges

/-- Result of the marking phase: the grown visited set, the number of
funded packages discovered, the retained direct dependencies, and the
visit log.  The log is specification-only instrumentation recording
each freshly marked identity and whether it is funded; no other
component depends on it. -/
structure MarkRes where
  seen : List IdKey
  cnt : Nat
  items : List MItem
  log : List (IdKey × Bool)

/-- Modelled from the spec: the first phase of one traversal level
(§4.2 identity dedup and §9 design note 1).  Every direct edge is
examined in order: targets without package metadata and identities
already in the visited set contribute nothing; each fresh identity is
added to the visited set, its funding normalized and filtered, and the
funded-package counter incremented when at least one valid entry
remains.  All direct children are registered before any of their
subtrees is descended, as the duplicate-handling expectations of the
consumer test `duplicate items along the tree` require. -/
def markE : List IdKey → GEdges → MarkRes
  | seen, .nil => ⟨seen, 0, [], []⟩
  | seen, .cons _ none rest => markE seen rest
  | seen, .cons k (some n) rest =>
    match n.package with
    | none => markE seen rest
    | some p =>
      if p.idKey ∈ seen then markE seen rest
      else
        let f := fundingOfDecl p.funding
        let r := markE (p.idKey :: seen) rest
        ⟨r.seen, (if f.isSome then 1 else 0) + r.cnt,
          ⟨k, p.version, f, n.edges⟩ :: r.items, (p.idKey, f.isSome) :: r.log⟩

def sizeMI (m : MItem) : Nat := 1 + sizeE m.edges

def sizeM : List MItem → Nat
  | [] => 0
  | m :: r => sizeMI m + sizeM r

/-- Result of the level-and-below aggregation: the grown visited set,
the funded-package count of the processed subforest, the parent's
ordinary and trailing dependency maps, and the accumulated visit log
(specification-only instrumentation). -/
structure AggRes where
  seen : List IdKey
  cnt : Nat
  nrm : FDeps
  trl : FDeps
  log : List (IdKey × Bool)

/-- Modelled from the spec: the second phase of one traversal level
(§4.4 pruning and re-parenting, §9 design note 2).  Each retained child
is processed in order: its own edges are marked and recursed into,
producing the merged map of its funded descendants.  A funded child is
assigned into the parent's map under its edge name, carrying its
descendants as its `dependencies`; an unfunded child contributes its
descendants to the parent's trailing map, which is assigned after the
ordinary keys.  The traversal is fuelled — callers instantiate the fuel
with `sizeM`, which the recursion never exhausts (`markE_size`). -/
def aggLF : Nat → List IdKey → FDeps → FDeps → List MItem → AggRes
  | 0, seen, nrm, trl, _ => ⟨seen, 0, nrm, trl, []⟩
  | _ + 1, seen, nrm, trl, [] => ⟨seen, 0, nrm, trl, []⟩
  | fuel + 1, seen, nrm, trl, m :: rest =>
    let r1 := markE seen m.edges
    let r2 := aggLF fuel r1.seen .nil .nil r1.items
    let sub := jsAssign r2.nrm r2.trl
    let acc :=
      match m.funding with
      | some f => (nrm.setk m.key (.mk none m.version (some f) (optDeps sub)), trl)
      | none => (nrm, if sub.isNil then trl else jsAssign trl sub)
    let r3 := aggLF fuel r2.seen acc.1 acc.2 rest
    ⟨r3.seen, r1.cnt + r2.cnt + r3.cnt, r3.nrm, r3.trl, r1.log ++ r2.log ++ r3.log⟩

/-- Modelled from the spec: `getFundingInfo` of `lib/utils/funding.js`
(§4.2): top-level name with path fallback, the root's version and
normalized funding surfaced at the top level (without incrementing the
counter, per the consumer test `top-level funding info`), the merged
pruned dependency map, and the funded-package count. -/
def getFundingInfo (g : GNode) : FundingInfo :=
  let r1 := markE [] g.edges
  let r2 := aggLF (sizeM r1.items) r1.seen .nil .nil r1.items
  { name := match g.name with
      | some nm => some nm
      | none => g.path
    version := g.package.bind Pkg.version
    funding := fundingOfDecl (g.package.bind Pkg.funding)
    dependencies := jsAssign r2.nrm r2.trl
    length := r1.cnt + r2.cnt }

/-- Modelled from the spec: the count-only aggregation mode (§4.2
inputs; glossary, count-only mode) — the identical marking and descent,
with no tree materialized. -/
def cntLF : Nat → List IdKey → List MItem → List IdKey × Nat
  | 0, seen, _ => (seen, 0)
  | _ + 1, seen, [] => (seen, 0)
  | fuel + 1, seen, m :: rest =>
    let r1 := markE seen m.edges
    let (s2, c2) := cntLF fuel r1.seen r1.items
    let (s3, c3) := cntLF fuel s2 rest
    (s3, r1.cnt + c2 + c3)

/-- Modelled from the spec: `getFundingInfo(tree, { countOnly: true })`
— the result object carries only `length`. -/
def getFundingLength (g : GNode) : Nat :=
  let r1 := markE [] g.edges
  r1.cnt + (cntLF (sizeM r1.items) r1.seen r1.items).2

/-- The full visit log of an aggregation run, in traversal order:
each freshly marked identity paired with its funded flag. -/
def visitLog (g : GNode) : List (IdKey × Bool) :=
  let r1 := markE [] g.edges
  r1.log ++ (aggLF (sizeM r1.items) r1.seen .nil .nil r1.items).log

/-- The distinct identities whose first-marked occurrence carries at
least one valid funding entry. -/
def fundedIds (g : GNode) : List IdKey :=
  ((visitLog g).filter (·.2)).map (·.1)

/-! ## Fixtures from the repository's shipped test file -/

def eHttp : Entry := ⟨some "http://example.com", some "foo", []⟩

def eHttps : Entry := ⟨some "https://example.com", some "foo", []⟩

def leafNode (nm ver : String) (f : Option FundVal) : GNode :=
  .mk (some nm) none (some ⟨some nm, some ver, f⟩) .nil

/-- Test `duplicate items along the tree`: the diamond occurrences of
`shared-top-first` and `shared-nested-first` are counted once each, and
the duplicate of `shared-nested-first` below `sub-dep` contributes
nothing there. -/
def dupGraph : GNode :=
  .mk (some "project") none (some ⟨none, some "2.3.4", none⟩)
    (.cons "single-item" (some (
      .mk (some "single-item") none (some ⟨some "single-item", some "1.0.0", some (.obj eHttps)⟩)
        (.cons "shared-top-first" (some (leafNode "shared-top-first" "1.0.0" (some (.obj eHttps))))
        (.cons "sub-dep" (some (
          .mk (some "sub-dep") none (some ⟨some "sub-dep", some "1.0.0", some (.obj eHttps)⟩)
            (.cons "shared-nested-first" (some (
              .mk (some "shared-nested-first") none
                (some ⟨some "shared-nested-first", some "1.0.0", some (.obj eHttps)⟩)
                (.cons "shared-top-first"
                  (some (leafNode "shared-top-first" "1.0.0" (some (.obj eHttps)))) .nil)))
             .nil)))
        (.cons "shared-nested-first"
          (some (leafNode "shared-nested-first" "1.0.0" (some (.obj eHttps))))
         .nil)))))
     .nil)

def eGit : Entry := ⟨some "git://example.git", some "foo", []⟩

def eTypeOnly : Entry := ⟨none, some "foo", []⟩

/-- Test `missing fund nested items tree`: funding without a url and
the `git://` url are discarded; both unfunded chains collapse, so
`sub-sub-sub-sub-dep` re-parents to the top level after the funded
keys. -/
def missingFundGraph : GNode :=
  .mk (some "project") none none
    (.cons "first-level-dep" (some (
      .mk (some "first-level-dep") none
        (some ⟨some "first-level-dep", some "1.0.0", some (.obj eTypeOnly)⟩)
        (.cons "sub-dep" (some (
          .mk (some "sub-dep") none (some ⟨some "sub-dep", some "1.0.0", none⟩)
            (.cons "sub-sub-dep-01" (some (
              .mk (some "sub-sub-dep-01") none
                (some ⟨some "sub-sub-dep-01", some "1.0.0", some (.obj eHttps)⟩)
                (.cons "non-funding-child" (some (
                  .mk (some "non-funding-child") none
                    (some ⟨some "non-funding-child", some "1.0.0", none⟩)
                    (.cons "sub-sub-sub-dep"
                      (some (leafNode "sub-sub-sub-dep" "1.0.0" (some (.obj eHttps)))) .nil)))
                 .nil)))
            (.cons "sub-sub-dep-02"
              (some (leafNode "sub-sub-dep-02" "1.0.0" (some (.obj eHttps))))
            (.cons "sub-sub-dep-03" (some (
              .mk (some "sub-sub-dep-03") none
                (some ⟨some "sub-sub-dep-03", some "1.0.0", some (.obj eGit)⟩)
                (.cons "sub-sub-sub-dep-03" (some (
                  .mk (some "sub-sub-sub-dep-03") none
                    (some ⟨some "sub-sub-sub-dep-03", some "1.0.0", none⟩)
                    (.cons "sub-sub-sub-sub-dep"
                      (some (leafNode "sub-sub-sub-sub-dep" "1.0.0" (some (.obj eHttp)))) .nil)))
                 .nil)))
             .nil)))))
         .nil)))
     .nil)

/-- Test `countOnly option`: the dedup counts `sub-sub-dep` once. -/
def countOnlyGraph : GNode :=
  .mk (some "project") none none
    (.cons "first-level-dep" (some (
      .mk (some "first-level-dep") none
        (some ⟨some "first-level-dep", some "1.0.0", some (.obj eTypeOnly)⟩)
        (.cons "sub-dep" (some (
          .mk (some "sub-dep") none (some ⟨some "sub-dep", some "1.0.0", some (.obj eHttps)⟩)
            (.cons "sub-sub-dep" (some (leafNode "sub-sub-dep" "1.0.0" (some (.obj eHttps)))) .nil)))
        (.cons "sub-sub-dep" (some (leafNode "sub-sub-dep" "1.0.0" (some (.obj eHttps))))
         .nil))))
     .nil)

/-- Test `handle different versions`: `foo@1.0.0` and `foo@2.0.0` are
distinct identities. -/
def diffVersionsGraph : GNode :=
  .mk (some "project") none none
    (.cons "foo" (some (
      .mk (some "foo") none (some ⟨some "foo", some "1.0.0", some (.obj eHttps)⟩)
        (.cons "bar" (some (leafNode "bar" "1.0.0" (some (.obj eHttps)))) .nil)))
    (.cons "lorem" (some (
      .mk (some "lorem") none (some ⟨some "lorem", none, none⟩)
        (.cons "foo" (some (
          .mk (some "foo") none (some ⟨some "foo", some "2.0.0", some (.obj eHttps)⟩)
            (.cons "foo-bar" (some (leafNode "foo-bar" "1.0.0" (some (.obj eHttps)))) .nil)))
         .nil)))
     .nil))

/-! ## Pruning: every node of the output carries funding -/

mutual
/-- The tree node and all its descendants carry a funding value. -/
def allFT : FTree → Bool
  | .mk _ _ f none => f.isSome
  | .mk _ _ f (some d) => f.isSome && allFD d

/-- Every tree in the map, recursively, carries a funding value. -/
def allFD : FDeps → Bool
  | .nil => true
  | .cons _ t r => allFT t && allFD r
end

/-! ## Re-parenting on duplicate-free graphs: the pure collapse -/

/-- The package-bearing direct dependencies of an edge collection,
ignoring the visited set (what `markE` retains when nothing has been
visited yet). -/
def levelItems : GEdges → List MItem
  | .nil => []
  | .cons _ none r => levelItems r
  | .cons k (some n) r =>
    match n.package with
    | none => levelItems r
    | some p => ⟨k, p.version, fundingOfDecl p.funding, n.edges⟩ :: levelItems r

/-- The identities of the package-bearing direct dependencies, with
their funded flags, ignoring the visited set. -/
def levelLog : GEdges → List (IdKey × Bool)
  | .nil => []
  | .cons _ none r => levelLog r
  | .cons _ (some n) r =>
    match n.package with
    | none => levelLog r
    | some p => (p.idKey, (fundingOfDecl p.funding).isSome) :: levelLog r

def levelKeys (es : GEdges) : List IdKey := (levelLog es).map Prod.fst

/-- All package identities of the subforest below a retained list, in
canonical traversal order, with no dedup. -/
def deepKeys : Nat → List MItem → List IdKey
  | 0, _ => []
  | _ + 1, [] => []
  | fuel + 1, m :: rest =>
    levelKeys m.edges ++ deepKeys fuel (levelItems m.edges) ++ deepKeys fuel rest

/-- The pure collapse of a subforest: funded children are attached
under their edge names with their collapsed descendants nested, and
each unfunded child's collapsed descendants are spliced into the
trailing map, assigned after the ordinary keys — the re-parenting of
§4.4 with no visited set. -/
def colLF : Nat → FDeps → FDeps → List MItem → FDeps × FDeps
  | 0, nrm, trl, _ => (nrm, trl)
  | _ + 1, nrm, trl, [] => (nrm, trl)
  | fuel + 1, nrm, trl, m :: rest =>
    let c2 := colLF fuel .nil .nil (levelItems m.edges)
    let sub := jsAssign c2.1 c2.2
    let acc :=
      match m.funding with
      | some f => (nrm.setk m.key (.mk none m.version (some f) (optDeps sub)), trl)
      | none => (nrm, if sub.isNil then trl else jsAssign trl sub)
    colLF fuel acc.1 acc.2 rest

/-- All package identities reachable in a graph (canonical traversal
order, no dedup). -/
def graphKeys (g : GNode) : List IdKey :=
  levelKeys g.edges ++ deepKeys (sizeM (levelItems g.edges)) (levelItems g.edges)

/-- The pure collapse of a whole graph's dependencies. -/
def collapseDeps (g : GNode) : FDeps :=
  let c := colLF (sizeM (levelItems g.edges)) .nil .nil (levelItems g.edges)
  jsAssign c.1 c.2

/-! ## The human renderer (`printHuman` of `lib/fund.js`) -/

/-- `getPrintableName` of `lib/fund.js`: the name followed by
`@version` when a non-empty version is present; an absent name prints
as JavaScript template interpolation would print `undefined`. -/
def getPrintableName (name version : Option String) : String :=
  (name.getD "undefined") ++
    (match version with
     | some v => if v = "" then "" else "@" ++ v
     | none => "")

/-- The label archy renders for `{ label: url, nodes: [pkgRef] }` after
trimming: the url line above the connected package reference.  archy is
an external library; its one-child output shape is modelled from its
documented rendering, with the connector depending on the unicode
option. -/
def archyPair (url pkgRef : String) (uni : Bool) : String :=
  url ++ "\n" ++ (if uni then "└── " else "`-- ") ++ pkgRef

/-- The url the renderer groups by — `const { url } = funding || {}`:
the `url` property of the node's funding value, which is absent both
for unfunded nodes and for array-valued funding. -/
def fundingUrl : Option FundVal → Option String
  | some (.obj e) => e.url
  | _ => none

/-- A visual node: its label and the ids of its attached children.
Id-indexed storage models the shared mutable JavaScript objects. -/
structure RItem where
  label : String
  nodes : List Nat
deriving Repr, DecidableEq

/-- One visit record: the grouping url of the visited package, its
printable reference, and the label a fresh node for it would carry.
Specification-only instrumentation — nothing else reads it. -/
structure LogE where
  key : Option String
  ref : String
  init : String
deriving Repr, DecidableEq

/-- The renderer's traversal state: the item store (id 0 is the
`result` object), the `seenUrls` map, the tracked `prev` dependencies
scope, the current visual parent, and the visit log. -/
structure PHState where
  store : List RItem
  seen : List (Option String × Nat)
  prev : FTree
  parent : Nat
  log : List LogE
deriving Repr

/-- `Map.get`-style lookup in the `seenUrls` association list. -/
def lookupSeen (u : Option String) : List (Option String × Nat) → Option Nat
  | [] => none
  | (u', i) :: r => if u' = u then some i else lookupSeen u r

def labelAt (store : List RItem) (i : Nat) : Option String :=
  (store.get? i).map RItem.label

/-- `parent.nodes = (parent.nodes || []).concat(item)`. -/
def attachTo (store : List RItem) (p i : Nat) : List RItem :=
  match store.get? p with
  | some it => store.set p ⟨it.label, it.nodes ++ [i]⟩
  | none => store

/-- `item.label += ', ' + pkgRef` on the shared item. -/
def appendRef (store : List RItem) (i : Nat) (ref : String) : List RItem :=
  match store.get? i with
  | some it => store.set i ⟨it.label ++ ", " ++ ref, it.nodes⟩
  | none => store

/-- The label computed by the `visit` callback: the two-line
url-over-reference label when the node has a (truthy) funding url, the
bare package reference otherwise. -/
def visitLabel (uni : Bool) (n : FTree) : String :=
  let pkgRef := getPrintableName n.name n.version
  match fundingUrl n.funding with
  | some url => if url = "" then pkgRef else archyPair url pkgRef uni
  | none => pkgRef

/-- The `visit` callback of `printHuman` (`lib/fund.js` lines 61–82):
compute the grouping url and label; a url already seen merges into the
existing item by appending `, pkgRef` to its label, creating and
attaching nothing; otherwise a fresh item is created, attached under
the current visual parent, and recorded in `seenUrls`.  Returns the
updated state and the item id handed to `getChildren`. -/
def visitItem (uni : Bool) (s : PHState) (n : FTree) : PHState × Nat :=
  let u := fundingUrl n.funding
  let pkgRef := getPrintableName n.name n.version
  let label := visitLabel uni n
  match lookupSeen u s.seen with
  | some i =>
    (⟨appendRef s.store i pkgRef, s.seen, s.prev, s.parent,
      s.log ++ [⟨u, pkgRef, label⟩]⟩, i)
  | none =>
    let i := s.store.length
    (⟨attachTo (s.store ++ [⟨label, []⟩]) s.parent i,
      s.seen ++ [(u, i)], s.prev, s.parent, s.log ++ [⟨u, pkgRef, label⟩]⟩, i)

/-- `{ name: key, ...node.dependencies[key] }`: the dependency key
becomes the child's `name` unless the child object already carries
one. -/
def childNode (k : String) (t : FTree) : FTree :=
  .mk (some (t.name.getD k)) t.version t.funding t.deps

def childrenOfD : FDeps → List FTree
  | .nil => []
  | .cons k t r => childNode k t :: childrenOfD r

/-- The children enumerated by `getChildren`
(`Object.keys(node.dependencies || {})`). -/
def childrenOf (n : FTree) : List FTree :=
  match n.deps with
  | some d => childrenOfD d
  | none => []

/-- The scope tracking of `getChildren` (`lib/fund.js` lines 83–88):
when the tracked `prev.dependencies` exists and the visited node is not
one of its keys, the scope advances to the visited node and the visual
parent to its item. -/
def scopeUpdate (s : PHState) (n : FTree) (rid : Nat) : PHState :=
  match s.prev.deps with
  | some d =>
    if FDeps.hasKey d (n.name.getD "undefined") then s
    else ⟨s.store, s.seen, n, rid, s.log⟩
  | none => s

def stepState (uni : Bool) (s : PHState) (n : FTree) : PHState :=
  scopeUpdate (visitItem uni s n).1 n (visitItem uni s n).2

mutual
def sizeFT : FTree → Nat
  | .mk _ _ _ none => 1
  | .mk _ _ _ (some d) => 1 + sizeFD d

def sizeFD : FDeps → Nat
  | .nil => 0
  | .cons _ t r => sizeFT t + sizeFD r
end

def sizeQ : List FTree → Nat
  | [] => 0
  | t :: r => sizeFT t + sizeQ r

/-- treeverse's `breadth` specialised to `printHuman`'s callbacks: a
queue-driven breadth-first walk that visits each dequeued node and then
enqueues its children (the library's object-identity dedup map never
fires here, because every child object is freshly constructed).
Fuelled; callers instantiate the fuel with `sizeQ`, which the recursion
never exhausts. -/
def bfsF (uni : Bool) : Nat → PHState → List FTree → PHState
  | 0, s, _ => s
  | _ + 1, s, [] => s
  | fuel + 1, s, n :: rest =>
    bfsF uni fuel (stepState uni s n) (rest ++ childrenOf n)

/-- The root `fundingInfo` as the visited object: a JavaScript `null`
name prints as `null` under template interpolation. -/
def rootTree (fi : FundingInfo) : FTree :=
  .mk (some (fi.name.getD "null")) fi.version fi.funding (some fi.dependencies)

/-- The final traversal state of `printHuman` on an aggregated tree:
fresh `result`, `seenUrls` and scope are created per invocation
(`lib/fund.js` lines 51–54). -/
def printHumanState (fi : FundingInfo) (uni : Bool) : PHState :=
  bfsF uni (sizeQ [rootTree fi]) ⟨[⟨"", []⟩], [], rootTree fi, 0, []⟩ [rootTree fi]

/-- `printHuman`'s output up to the final archy serialization: the
traversal state, the header, the ids in `result.nodes`, and whether the
top-level item is wrapped under a synthetic header node
(`lib/fund.js` lines 97–98). -/
structure PHOut where
  state : PHState
  header : String
  rootIds : List Nat
  wrapped : Bool
deriving Repr

def printHuman (fi : FundingInfo) (uni : Bool) : PHOut :=
  let s := printHumanState fi uni
  let header := getPrintableName (rootTree fi).name fi.version
  let rootIds :=
    match s.store.get? 0 with
    | some it => it.nodes
    | none => []
  let wrapped :=
    match rootIds.head? with
    | some r => !(labelAt s.store r == some header)
    | none => true
  ⟨s, header, rootIds, wrapped⟩

/-- All item ids attached anywhere in the rendered forest (under the
`result` object or under any item). -/
def allAttached (store : List RItem) : List Nat :=
  (store.map RItem.nodes).flatten

/-- The label the grouping law predicts for url key `u`: the initial
label of the first visit carrying `u`, extended by `, ref` for every
later visit carrying `u`, in visit order. -/
def accLabel (u : Option String) (log : List LogE) : Option String :=
  match log.filter (fun e => e.key == u) with
  | [] => none
  | e :: es => some (es.foldl (fun l x => l ++ ", " ++ x.ref) e.init)

/-! ## The renderer's invariant -/

/-- The invariant maintained by the renderer's traversal: the store has
one item per seen url plus the `result` object; the seen map binds
distinct urls to the item ids `1..n` in creation order; every created
item is attached exactly once; the label of the item bound to a url is
exactly the accumulated label the grouping law predicts from the log;
and a url is bound iff a visit carried it. -/
structure INV (s : PHState) : Prop where
  slen : s.store.length = s.seen.length + 1
  ids : s.seen.map Prod.snd = List.range' 1 s.seen.length
  keys : (s.seen.map Prod.fst).Nodup
  par : s.parent < s.store.length
  att : (allAttached s.store).Perm (List.range' 1 s.seen.length)
  lab : ∀ p ∈ s.seen, labelAt s.store p.2 = accLabel p.1 s.log
  kiff : ∀ u, (∃ i, (u, i) ∈ s.seen) ↔ u ∈ s.log.map LogE.key

/-! ## The targeted-open path (`openFundingUrl` and `fund`) -/

/-- `[].concat(retrieveFunding(funding)).filter(validFundingField)` of
`openFundingUrl` (`lib/fund.js` line 127): normalize, flatten one array
level, and keep the entry objects that pass the validity check (an
absent declaration contributes a single `undefined` element, which the
filter drops). -/
def validSources (funding : Option FundVal) : List Entry :=
  match retrieveFundingO funding with
  | none => []
  | some (.arr xs) => xs.toList.filterMap fun v =>
      match v with
      | .obj e => if validFundingField (.obj e) then some e else none
      | _ => none
  | some (.str _) => []
  | some (.obj e) => if validFundingField (.obj e) then [e] else []

/-- The observable outcome of `openFundingUrl` after the package has
been resolved: `opened` is the `openUrl` call carrying the selected
entry's type and url; `badAccess` is the TypeError raised by
destructuring `validSources[idx]` when the index is out of bounds;
`listed` is the printed 1-based enumeration of the entries followed by
the `--which=1` usage hint; `noFund` is the error with code
`ENOFUND`. -/
inductive OpenOutcome where
  | opened : Option String → Option String → OpenOutcome
  | badAccess : OpenOutcome
  | listed : List (Nat × Option String × Option String) → OpenOutcome
  | noFund : OpenOutcome
deriving DecidableEq, Repr

/-- The branch selection of `openFundingUrl` (`lib/fund.js` lines
129–150) as a function of the valid sources and the selector
(`none` models both an absent `--which` and the `NaN` that a literal
`"NaN"` argument produces, since every numeric comparison on `NaN` is
false and `NaN` is falsy in the index expression). -/
def openFundingUrl (vs : List Entry) (n? : Option Nat) : OpenOutcome :=
  let inRange : Bool :=
    match n? with
    | some n => decide (0 < n) && decide (n ≤ vs.length)
    | none => false
  if vs.length == 1 || inRange then
    let idx := match n? with
      | some n => if n = 0 then 0 else n - 1
      | none => 0
    match vs.get? idx with
    | some e => .opened e.type e.url
    | none => .badAccess
  else if !(match n? with | some n => decide (1 ≤ n) | none => false) then
    .listed (vs.enum.map fun p => (p.1 + 1, p.2.type, p.2.url))
  else
    .noFund

/-- The opening branch in isolation: the access
`validSources[fundingSourceNumber ? fundingSourceNumber - 1 : 0]`
followed by the destructuring of the result. -/
def openBranch (vs : List Entry) (idx : Nat) : OpenOutcome :=
  match vs.get? idx with
  | some e => .opened e.type e.url
  | none => .badAccess

def digitChar (n : Nat) : Char := Char.ofNat (48 + n)

def natDigsF : Nat → Nat → List Char
  | 0, _ => []
  | fuel + 1, n =>
    if n < 10 then [digitChar n]
    else natDigsF fuel (n / 10) ++ [digitChar (n % 10)]

def natToStr (n : Nat) : String := ⟨natDigsF (n + 1) n⟩

/-- `String(m)` for the numbers produced by `parseInt` (exact-integer
model of the float printing; in both the model and the engine every
canonical decimal digit string round-trips). -/
def intToStr (m : Int) : String :=
  if m < 0 then "-" ++ natToStr m.natAbs else natToStr m.toNat

def digitsToNat (ds : List Char) : Nat :=
  ds.foldl (fun a c => a * 10 + (c.toNat - 48)) 0

def digitsVal (cs : List Char) : Option Nat :=
  match cs.takeWhile Char.isDigit with
  | [] => none
  | ds => some (digitsToNat ds)

/-- `parseInt(s, 10)`: skip leading whitespace, an optional sign, then
the longest digit run; `none` models `NaN`. -/
def jsParseInt (s : String) : Option Int :=
  let cs := s.data.dropWhile fun c =>
    c == ' ' || c == '\t' || c == '\n' || c == '\r'
  match cs with
  | '-' :: rest => (digitsVal rest).map fun v => -(v : Int)
  | '+' :: rest => (digitsVal rest).map fun v => (v : Int)
  | rest => (digitsVal rest).map fun v => (v : Int)

/-- Result of the `--which` validation inside `fund` — either the
validated selector handed on to `openFundingUrl`, or the error with
code `EFUNDNUMBER`. -/
inductive WhichCheck where
  | ok : Option Nat → WhichCheck
  | errFundNumber : WhichCheck
deriving DecidableEq, Repr

/-- The selector validation of `fund` (`lib/fund.js` lines 156–164):
`fundingSourceNumber = numberArg && parseInt(numberArg, 10)`, rejected
with `EFUNDNUMBER` when `String(fundingSourceNumber) !== numberArg` or
`fundingSourceNumber < 1`.  The empty string short-circuits to itself
(`'' < 1` numerically coerces to `0 < 1`, so it is rejected); a `NaN`
result prints as `"NaN"` and `NaN < 1` is false, so the literal
argument `"NaN"` passes validation and reaches `openFundingUrl`, where
it behaves exactly like an absent selector. -/
def fundWhichCheck (which : Option String) : WhichCheck :=
  match which with
  | none => .ok none
  | some s =>
    if s = "" then .errFundNumber
    else
      match jsParseInt s with
      | none => if s = "NaN" then .ok none else .errFundNumber
      | some m =>
        if intToStr m = s ∧ 1 ≤ m then .ok (some m.toNat) else .errFundNumber

/-- The targeted-open flow of `fund`: validate the selector, then run
`openFundingUrl` on the resolved package's valid sources. -/
inductive FundResult where
  | errFundNumber : FundResult
  | outcome : OpenOutcome → FundResult
deriving DecidableEq, Repr

def fundOpen (which : Option String) (vs : List Entry) : FundResult :=
  match fundWhichCheck which with
  | .errFundNumber => .errFundNumber
  | .ok n? => .outcome (openFundingUrl vs n?)

/-! ## Cross-invocation state (the `fund` module holds none) -/

/-- The process heap threaded across `fund` invocations.  The module
body of `lib/fund.js` declares only constant bindings (the usage
strings and helpers); every aggregation and rendering structure — the
visited set, `result`, `seenUrls` — is allocated inside the call
(lines 51–54 and the aggregator's per-call state), so an invocation
reads nothing from the heap and only appends its own result to the
history. -/
structure ProcHeap where
  history : List (FundingInfo × PHOut)

def fundInvoke (h : ProcHeap) (g : GNode) (uni : Bool) :
    (FundingInfo × PHOut) × ProcHeap :=
  let fi := getFundingInfo g
  let out := printHuman fi uni
  ((fi, out), ⟨h.history ++ [(fi, out)]⟩)

/-! ## Fixtures for the claim theorems -/

/-- A graph whose root itself declares valid funding and has no
dependencies. -/
def rootFundedG : GNode :=
  .mk (some "project") none (some ⟨none, none, some (.str "http://example.com")⟩) .nil

def eHttpX : Entry := ⟨some "http://x.example.com", none, []⟩

def eHttpY : Entry := ⟨some "http://y.example.com", none, []⟩

/-- A diamond: `foo@1.0.0` and `foo@2.0.0`, both funded, reached
through two different (unfunded) parents. -/
def versionDiamondG : GNode :=
  .mk (some "project") none none
    (.cons "p1" (some (.mk (some "p1") none (some ⟨some "p1", some "1.0.0", none⟩)
      (.cons "foo" (some (leafNode "foo" "1.0.0" (some (.obj eHttpX)))) .nil)))
    (.cons "p2" (some (.mk (some "p2") none (some ⟨some "p2", some "1.0.0", none⟩)
      (.cons "foo" (some (leafNode "foo" "2.0.0" (some (.obj eHttpX)))) .nil)))
     .nil))

/-- A diamond in which both paths reach the same identity
`x@1.0.0`. -/
def sameDiamondG : GNode :=
  .mk (some "project") none none
    (.cons "pa" (some (.mk (some "pa") none (some ⟨some "pa", some "1.0.0", none⟩)
      (.cons "x" (some (leafNode "x" "1.0.0" (some (.obj eHttpX)))) .nil)))
    (.cons "pb" (some (.mk (some "pb") none (some ⟨some "pb", some "1.0.0", none⟩)
      (.cons "x" (some (leafNode "x" "1.0.0" (some (.obj eHttpX)))) .nil)))
     .nil))

/-- A funded package `a` next to an unfunded package `u` whose child
`x@1.0.0` duplicates the identity of `a`'s funded child `x@1.0.0`. -/
def dupReparentG : GNode :=
  .mk (some "project") none none
    (.cons "a" (some (.mk (some "a") none (some ⟨some "a", some "1.0.0", some (.obj eHttpX)⟩)
      (.cons "x" (some (leafNode "x" "1.0.0" (some (.obj eHttpY)))) .nil)))
    (.cons "u" (some (.mk (some "u") none (some ⟨some "u", some "1.0.0", none⟩)
      (.cons "x" (some (leafNode "x" "1.0.0" (some (.obj eHttpY)))) .nil)))
     .nil))

/-- A three-level chain in which only the leaf is funded (the spec's
re-parenting scenario). -/
def chainG : GNode :=
  .mk (some "project") none none
    (.cons "mid1" (some (.mk (some "mid1") none (some ⟨some "mid1", some "1.0.0", none⟩)
      (.cons "mid2" (some (.mk (some "mid2") none (some ⟨some "mid2", some "1.0.0", none⟩)
        (.cons "leaf" (some (leafNode "leaf" "1.0.0" (some (.obj eHttpX)))) .nil)))
       .nil)))
     .nil)

/-- Package `a` carries a single funding entry with url
`http://x.example.com`; package `b` carries an array of two entries,
the first of which has the same url. -/
def arrGroupG : GNode :=
  .mk (some "project") none none
    (.cons "a" (some (leafNode "a" "1.0.0" (some (.obj eHttpX))))
    (.cons "b" (some (leafNode "b" "1.0.0"
      (some (.arr (.cons (.obj eHttpX) (.cons (.obj eHttpY) .nil))))))
     .nil))

/-- Two packages with the same single funding url. -/
def shareUrlG : GNode :=
  .mk (some "project") none none
    (.cons "p" (some (leafNode "p" "1.0.0" (some (.obj eHttpX))))
    (.cons "q" (some (leafNode "q" "1.0.0" (some (.obj eHttpX))))
     .nil))

/-- `s` ends with `sfx` (computed on the character lists, so concrete
instances evaluate inside the kernel). -/
def strEndsWith (s sfx : String) : Bool :=
  List.isSuffixOf sfx.data s.data

/-! ## Size bookkeeping for the fueled traversals -/

theorem sizeE_cons_some (k : String) (nd : GNode) (rest : GEdges) :
    sizeE (GEdges.cons k (some nd) rest) = sizeN nd + sizeE rest := rfl

theorem sizeN_eq (nd : GNode) : sizeN nd = 1 + sizeE nd.edges := by
  cases nd with
  | mk a b c es' => rfl

theorem markE_size (seen : List IdKey) (es : GEdges) :
    sizeM (markE seen es).items ≤ sizeE es := by
  induction seen, es using markE.induct with
  | case1 seen => simp [markE, sizeM]
  | case2 seen k rest ih => simpa [markE, sizeE] using ih
  | case3 seen k nd rest hp ih =>
    simp only [markE, hp]
    have := sizeN_eq nd
    rw [sizeE_cons_some]
    omega
  | case4 seen k nd rest p hp hmem ih =>
    simp only [markE, hp, if_pos hmem]
    have := sizeN_eq nd
    rw [sizeE_cons_some]
    omega
  | case5 seen k nd rest p hp hmem ih =>
    simp only [markE, hp, if_neg hmem]
    have hs := sizeN_eq nd
    rw [sizeE_cons_some]
    simp only [sizeM, sizeMI]
    omega

/-! ## The consumer tests shipped with the repository

Each `example` below replays one of the `getFundingInfo` /
`retrieveFunding` tests from the repository's test file and checks that
the spec-modelled aggregator reproduces the expected result verbatim. -/

/-- Test `empty tree`. -/
example : getFundingInfo (.mk none none none .nil) =
    ⟨none, none, none, .nil, 0⟩ := rfl

/-- Test `single item missing funding`: the fixture uses the
`dependencies` input form, which the traversal does not descend; since
its only entry carries no funding the expected result is empty either
way. -/
example : getFundingInfo (.mk (some "project") none none .nil) =
    ⟨some "project", none, none, .nil, 0⟩ := rfl

/-- Test `funding object missing url`: the edge carries no `to` target
(the fixture puts the node data directly on the edge), so the traversal
skips it. -/
example :
    getFundingInfo (.mk (some "project") none none
      (.cons "single-item" none .nil)) =
    ⟨some "project", none, none, .nil, 0⟩ := rfl

/-- Test `use path if name is missing`. -/
example : getFundingInfo (.mk none (some "/tmp/foo") none .nil) =
    ⟨some "/tmp/foo", none, none, .nil, 0⟩ := rfl

/-- Test `single item tree`. -/
example :
    getFundingInfo (.mk (some "project") none none
      (.cons "single-item"
        (some (leafNode "single-item" "1.0.0" (some (.obj eHttp)))) .nil)) =
    ⟨some "project", none, none,
      .cons "single-item" (.mk none (some "1.0.0") (some (.obj eHttp)) none) .nil,
      1⟩ := rfl

/-- Test `top-level funding info`: the root's own funding is normalized
and surfaced at the top level, and `length` stays 0. -/
example :
    getFundingInfo (.mk (some "project") none
      (some ⟨none, none, some (.str "http://example.com")⟩) .nil) =
    ⟨some "project", none, some (.obj ⟨some "http://example.com", none, []⟩),
      .nil, 0⟩ := rfl

/-- Test `use string shorthand`. -/
example :
    getFundingInfo (.mk (some "project") none none
      (.cons "single-item"
        (some (leafNode "single-item" "1.0.0" (some (.str "http://example.com")))) .nil)) =
    ⟨some "project", none, none,
      .cons "single-item"
        (.mk none (some "1.0.0") (some (.obj ⟨some "http://example.com", none, []⟩)) none) .nil,
      1⟩ := rfl

example :
    getFundingInfo dupGraph =
    ⟨some "project", some "2.3.4", none,
      .cons "single-item" (.mk none (some "1.0.0") (some (.obj eHttps))
        (some (.cons "shared-top-first" (.mk none (some "1.0.0") (some (.obj eHttps)) none)
          (.cons "sub-dep" (.mk none (some "1.0.0") (some (.obj eHttps)) none)
          (.cons "shared-nested-first" (.mk none (some "1.0.0") (some (.obj eHttps)) none)
           .nil))))) .nil,
      4⟩ := rfl

/-- Test `multi-level nested items tree`. -/
example :
    getFundingInfo (.mk (some "project") none none
      (.cons "first-level-dep" (some (
        .mk (some "first-level-dep") none
          (some ⟨some "first-level-dep", some "1.0.0", some (.obj eHttps)⟩)
          (.cons "sub-dep" (some (
            .mk (some "sub-dep") none (some ⟨some "sub-dep", some "1.0.0", some (.obj eHttps)⟩)
              (.cons "sub-sub-dep" (some (leafNode "sub-sub-dep" "1.0.0" (some (.obj eHttps)))) .nil)))
           .nil)))
       .nil)) =
    ⟨some "project", none, none,
      .cons "first-level-dep" (.mk none (some "1.0.0") (some (.obj eHttps))
        (some (.cons "sub-dep" (.mk none (some "1.0.0") (some (.obj eHttps))
          (some (.cons "sub-sub-dep" (.mk none (some "1.0.0") (some (.obj eHttps)) none) .nil)))
         .nil))) .nil,
      3⟩ := rfl

example :
    getFundingInfo missingFundGraph =
    ⟨some "project", none, none,
      .cons "sub-sub-dep-01" (.mk none (some "1.0.0") (some (.obj eHttps))
        (some (.cons "sub-sub-sub-dep" (.mk none (some "1.0.0") (some (.obj eHttps)) none) .nil)))
      (.cons "sub-sub-dep-02" (.mk none (some "1.0.0") (some (.obj eHttps)) none)
      (.cons "sub-sub-sub-sub-dep" (.mk none (some "1.0.0") (some (.obj eHttp)) none)
       .nil)),
      4⟩ := rfl

example : getFundingLength countOnlyGraph = 2 := rfl

example : getFundingLength diffVersionsGraph = 4 := rfl

/-- Test `retrieve funding info from valid objects`. -/
example :
    retrieveFunding (.obj ⟨some "http://example.com", some "Foo", []⟩) =
      .obj ⟨some "http://example.com", some "Foo", []⟩ ∧
    retrieveFunding (.obj ⟨some "http://example.com", some "Foo", [("extra", "Foo")]⟩) =
      .obj ⟨some "http://example.com", some "Foo", [("extra", "Foo")]⟩ ∧
    retrieveFunding (.obj ⟨some "http://example.com", none, []⟩) =
      .obj ⟨some "http://example.com", none, []⟩ := ⟨rfl, rfl, rfl⟩

/-- Test `retrieve funding info from invalid objects`: empty objects
pass through and absent input stays absent. -/
example :
    retrieveFunding (.obj ⟨none, none, []⟩) = .obj ⟨none, none, []⟩ ∧
    retrieveFundingO none = none := ⟨rfl, rfl⟩

/-- Test `retrieve funding info string shorthand`. -/
example :
    retrieveFunding (.str "http://example.com") =
      .obj ⟨some "http://example.com", none, []⟩ := rfl

/-- Test `retrieve funding info from an array`: elementwise
normalization, order and duplicates preserved. -/
example :
    retrieveFunding (.arr (.ofList [
      .str "http://example.com",
      .obj ⟨some "http://two.example.com", none, []⟩,
      .str "http://three.example.com",
      .obj ⟨some "http://three.example.com", some "dos", []⟩,
      .obj ⟨some "http://three.example.com", some "third copy!", [("extra", "extra metadata!")]⟩])) =
    .arr (.ofList [
      .obj ⟨some "http://example.com", none, []⟩,
      .obj ⟨some "http://two.example.com", none, []⟩,
      .obj ⟨some "http://three.example.com", none, []⟩,
      .obj ⟨some "http://three.example.com", some "dos", []⟩,
      .obj ⟨some "http://three.example.com", some "third copy!", [("extra", "extra metadata!")]⟩]) := rfl

/-! ## Structure of the traversal: visited set, log, and counter -/

theorem markE_seen (seen : List IdKey) (es : GEdges) :
    (markE seen es).seen = ((markE seen es).log.map Prod.fst).reverse ++ seen := by
  induction seen, es using markE.induct with
  | case1 seen => simp [markE]
  | case2 seen k rest ih => simpa [markE] using ih
  | case3 seen k nd rest hp ih => simpa [markE, hp] using ih
  | case4 seen k nd rest p hp hmem ih =>
    simp only [markE, hp, if_pos hmem]; exact ih
  | case5 seen k nd rest p hp hmem ih =>
    simp only [markE, hp, if_neg hmem, List.map_cons, List.reverse_cons,
      List.append_assoc]
    rw [ih]; simp

theorem markE_nodup {seen : List IdKey} {es : GEdges} (h : seen.Nodup) :
    (markE seen es).seen.Nodup := by
  induction seen, es using markE.induct with
  | case1 seen => simpa [markE] using h
  | case2 seen k rest ih => simpa [markE] using ih h
  | case3 seen k nd rest hp ih => simp only [markE, hp]; exact ih h
  | case4 seen k nd rest p hp hmem ih =>
    simp only [markE, hp, if_pos hmem]; exact ih h
  | case5 seen k nd rest p hp hmem ih =>
    simp only [markE, hp, if_neg hmem]
    exact ih (List.nodup_cons.2 ⟨hmem, h⟩)

theorem markE_cnt (seen : List IdKey) (es : GEdges) :
    (markE seen es).cnt = ((markE seen es).log.filter (·.2)).length := by
  induction seen, es using markE.induct with
  | case1 seen => simp [markE]
  | case2 seen k rest ih => simpa [markE] using ih
  | case3 seen k nd rest hp ih => simpa [markE, hp] using ih
  | case4 seen k nd rest p hp hmem ih =>
    simp only [markE, hp, if_pos hmem]; exact ih
  | case5 seen k nd rest p hp hmem ih =>
    simp only [markE, hp, if_neg hmem]
    cases hf : (fundingOfDecl p.funding).isSome
    · simp [List.filter_cons, hf, ih]
    · simp [List.filter_cons, hf, ih]; omega

theorem aggLF_seen (fuel : Nat) :
    ∀ (seen : List IdKey) (nrm trl : FDeps) (ms : List MItem),
    (aggLF fuel seen nrm trl ms).seen =
      ((aggLF fuel seen nrm trl ms).log.map Prod.fst).reverse ++ seen := by
  induction fuel with
  | zero => intro seen nrm trl ms; simp [aggLF]
  | succ fuel ih =>
    intro seen nrm trl ms
    match ms with
    | [] => simp [aggLF]
    | m :: rest =>
      simp only [aggLF]
      rw [ih, ih, markE_seen]
      simp [List.append_assoc]

theorem aggLF_nodup (fuel : Nat) :
    ∀ {seen : List IdKey} (nrm trl : FDeps) (ms : List MItem),
    seen.Nodup → (aggLF fuel seen nrm trl ms).seen.Nodup := by
  induction fuel with
  | zero => intro seen nrm trl ms h; simpa [aggLF] using h
  | succ fuel ih =>
    intro seen nrm trl ms h
    match ms with
    | [] => simpa [aggLF] using h
    | m :: rest =>
      simp only [aggLF]
      exact ih _ _ _ (ih _ _ _ (markE_nodup h))

theorem aggLF_cnt (fuel : Nat) :
    ∀ (seen : List IdKey) (nrm trl : FDeps) (ms : List MItem),
    (aggLF fuel seen nrm trl ms).cnt =
      ((aggLF fuel seen nrm trl ms).log.filter (·.2)).length := by
  induction fuel with
  | zero => intro seen nrm trl ms; simp [aggLF]
  | succ fuel ih =>
    intro seen nrm trl ms
    match ms with
    | [] => simp [aggLF]
    | m :: rest =>
      simp only [aggLF]
      rw [ih, ih, markE_cnt]
      simp [List.filter_append]
      omega

/-- The visited set, the counter and the log of the traversal do not
depend on the dependency maps accumulated so far. -/
theorem aggLF_acc (fuel : Nat) :
    ∀ (seen : List IdKey) (nrm trl : FDeps) (ms : List MItem),
    (aggLF fuel seen nrm trl ms).seen = (aggLF fuel seen .nil .nil ms).seen ∧
    (aggLF fuel seen nrm trl ms).cnt = (aggLF fuel seen .nil .nil ms).cnt ∧
    (aggLF fuel seen nrm trl ms).log = (aggLF fuel seen .nil .nil ms).log := by
  induction fuel with
  | zero => intro seen nrm trl ms; simp [aggLF]
  | succ fuel ih =>
    intro seen nrm trl ms
    match ms with
    | [] => simp [aggLF]
    | m :: rest =>
      simp only [aggLF]
      refine ⟨?_, ?_, ?_⟩
      · exact ((ih _ _ _ rest).1).trans ((ih _ _ _ rest).1).symm
      · rw [((ih _ _ _ rest).2.1).trans ((ih _ _ _ rest).2.1).symm]
      · rw [((ih _ _ _ rest).2.2).trans ((ih _ _ _ rest).2.2).symm]

/-- The count-only traversal computes exactly the visited set and
counter of the tree-building traversal. -/
theorem cntLF_eq (fuel : Nat) :
    ∀ (seen : List IdKey) (ms : List MItem),
    cntLF fuel seen ms =
      ((aggLF fuel seen .nil .nil ms).seen, (aggLF fuel seen .nil .nil ms).cnt) := by
  induction fuel with
  | zero => intro seen ms; simp [aggLF, cntLF]
  | succ fuel ih =>
    intro seen ms
    match ms with
    | [] => simp [aggLF, cntLF]
    | m :: rest =>
      simp only [aggLF, cntLF]
      rw [ih, ih]
      have h := aggLF_acc fuel (aggLF fuel (markE seen m.edges).seen .nil .nil
        (markE seen m.edges).items).seen
      refine Prod.ext ?_ ?_ <;> simp
      · exact ((h _ _ rest).1).symm
      · exact ((h _ _ rest).2.1).symm

theorem getFundingLength_eq (g : GNode) :
    getFundingLength g = (getFundingInfo g).length := by
  simp only [getFundingLength, getFundingInfo]
  rw [cntLF_eq]

theorem getFundingInfo_length (g : GNode) :
    (getFundingInfo g).length = ((visitLog g).filter (·.2)).length := by
  simp only [getFundingInfo, visitLog]
  rw [markE_cnt, aggLF_cnt]
  simp [List.filter_append]

theorem visitLog_keys_nodup (g : GNode) :
    ((visitLog g).map Prod.fst).Nodup := by
  have h1 : (markE [] g.edges).seen.Nodup := markE_nodup List.nodup_nil
  have h2 := aggLF_nodup (sizeM (markE [] g.edges).items) FDeps.nil FDeps.nil
    (markE [] g.edges).items h1
  rw [aggLF_seen] at h2
  simp only [visitLog]
  rw [markE_seen] at h2 ⊢
  simp only [List.append_nil] at h2 ⊢
  rw [← List.reverse_append, List.nodup_reverse] at h2
  simpa [List.map_append] using h2

theorem fundedIds_nodup (g : GNode) : (fundedIds g).Nodup := by
  unfold fundedIds
  exact (visitLog_keys_nodup g).sublist
    (List.Sublist.map Prod.fst (List.filter_sublist _))

theorem getFundingInfo_length_card (g : GNode) :
    (getFundingInfo g).length = (fundedIds g).toFinset.card := by
  rw [List.toFinset_card_of_nodup (fundedIds_nodup g)]
  rw [getFundingInfo_length]
  simp [fundedIds]

theorem setk_allFD :
    ∀ (d : FDeps) (k : String) (t : FTree),
    allFD d = true → allFT t = true → allFD (FDeps.setk d k t) = true := by
  intro d k t
  induction d, k, t using FDeps.setk.induct with
  | case1 k v =>
    intro _ ht
    simp [FDeps.setk, allFD, ht]
  | case2 t' r k v =>
    intro hd ht
    simp only [allFD, Bool.and_eq_true] at hd
    simp [FDeps.setk, allFD, ht, hd.2]
  | case3 k' t' r k v h ih =>
    intro hd ht
    simp only [allFD, Bool.and_eq_true] at hd
    simp [FDeps.setk, h, allFD, hd.1, ih hd.2 ht]

theorem jsAssign_allFD :
    ∀ (a b : FDeps),
    allFD a = true → allFD b = true → allFD (jsAssign a b) = true := by
  intro a b
  induction a, b using jsAssign.induct with
  | case1 a =>
    intro ha _
    simpa [jsAssign] using ha
  | case2 a k t r ih =>
    intro ha hb
    simp only [allFD, Bool.and_eq_true] at hb
    simpa [jsAssign] using ih (setk_allFD a k t ha hb.1) hb.2

theorem allFT_mk_none (n v : Option String) (f : Option FundVal) :
    allFT (FTree.mk n v f none) = f.isSome := rfl

theorem allFT_mk_some (n v : Option String) (f : Option FundVal) (d : FDeps) :
    allFT (FTree.mk n v f (some d)) = (f.isSome && allFD d) := rfl

theorem allFT_mk_optDeps (v : Option String) (f : FundVal) (d : FDeps)
    (hd : allFD d = true) :
    allFT (FTree.mk none v (some f) (optDeps d)) = true := by
  unfold optDeps
  by_cases h : d.isNil = true
  · rw [if_pos h, allFT_mk_none]; rfl
  · rw [if_neg h, allFT_mk_some, hd]; rfl

theorem aggLF_allFD (fuel : Nat) :
    ∀ (seen : List IdKey) (nrm trl : FDeps) (ms : List MItem),
    allFD nrm = true → allFD trl = true →
    allFD (aggLF fuel seen nrm trl ms).nrm = true ∧
    allFD (aggLF fuel seen nrm trl ms).trl = true := by
  induction fuel with
  | zero => intro seen nrm trl ms hn ht; simpa [aggLF] using ⟨hn, ht⟩
  | succ fuel ih =>
    intro seen nrm trl ms hn ht
    match ms with
    | [] => simpa [aggLF] using ⟨hn, ht⟩
    | m :: rest =>
      simp only [aggLF]
      have hsub := ih (markE seen m.edges).seen FDeps.nil FDeps.nil
        (markE seen m.edges).items rfl rfl
      have hsub2 : allFD (jsAssign
          (aggLF fuel (markE seen m.edges).seen FDeps.nil FDeps.nil (markE seen m.edges).items).nrm
          (aggLF fuel (markE seen m.edges).seen FDeps.nil FDeps.nil (markE seen m.edges).items).trl) = true :=
        jsAssign_allFD _ _ hsub.1 hsub.2
      refine ih _ _ _ rest ?_ ?_
      · cases hm : m.funding with
        | some f =>
          simp only
          exact setk_allFD _ _ _ hn (allFT_mk_optDeps _ _ _ hsub2)
        | none => simpa using hn
      · cases hm : m.funding with
        | some f => simpa using ht
        | none =>
          simp only
          by_cases hnil : (jsAssign
              (aggLF fuel (markE seen m.edges).seen FDeps.nil FDeps.nil (markE seen m.edges).items).nrm
              (aggLF fuel (markE seen m.edges).seen FDeps.nil FDeps.nil (markE seen m.edges).items).trl).isNil = true
          · simp [hnil, ht]
          · simp only [hnil]
            simp [jsAssign_allFD _ _ ht hsub2]

/-- Every package appearing anywhere in the aggregated dependency tree
carries at least one valid funding entry. -/
theorem getFundingInfo_allFD (g : GNode) :
    allFD (getFundingInfo g).dependencies = true := by
  simp only [getFundingInfo]
  have h := aggLF_allFD (sizeM (markE [] g.edges).items) (markE [] g.edges).seen
    FDeps.nil FDeps.nil (markE [] g.edges).items rfl rfl
  exact jsAssign_allFD _ _ h.1 h.2

theorem markE_fresh :
    ∀ (seen : List IdKey) (es : GEdges),
    (levelKeys es).Nodup → (∀ k ∈ levelKeys es, k ∉ seen) →
    (markE seen es).items = levelItems es ∧ (markE seen es).log = levelLog es := by
  intro seen es
  induction seen, es using markE.induct with
  | case1 seen => intro _ _; simp [markE, levelItems, levelLog]
  | case2 seen k rest ih =>
    intro h1 h2
    simp only [levelKeys, levelLog] at h1 h2
    simpa [markE, levelItems, levelLog] using ih h1 h2
  | case3 seen k nd rest hp ih =>
    intro h1 h2
    simp only [levelKeys, levelLog, hp] at h1 h2
    simpa [markE, levelItems, levelLog, hp] using ih h1 h2
  | case4 seen k nd rest p hp hmem ih =>
    intro h1 h2
    simp only [levelKeys, levelLog, hp, List.map_cons] at h2
    exact absurd hmem (h2 p.idKey (List.mem_cons_self _ _))
  | case5 seen k nd rest p hp hmem ih =>
    intro h1 h2
    simp only [levelKeys, levelLog, hp, List.map_cons, List.nodup_cons] at h1 h2
    have hfresh : ∀ k' ∈ levelKeys rest, k' ∉ p.idKey :: seen := by
      intro k' hk'
      have hk2 : k' ∈ List.map Prod.fst (levelLog rest) := by
        simpa [levelKeys] using hk'
      simp only [List.mem_cons, not_or]
      exact ⟨fun h => h1.1 (h ▸ hk2), h2 k' (List.mem_cons_of_mem _ hk2)⟩
    have ih' := ih (by simpa [levelKeys] using h1.2) hfresh
    simp only [markE, hp, if_neg hmem, levelItems, levelLog]
    exact ⟨by rw [ih'.1], by rw [ih'.2]⟩

/-- On a subforest whose canonical identity list is duplicate-free and
disjoint from the visited set, the dedup traversal computes exactly the
pure collapse, and its log lists the canonical identities. -/
theorem aggLF_collapse (fuel : Nat) :
    ∀ (seen : List IdKey) (nrm trl : FDeps) (ms : List MItem),
    (deepKeys fuel ms).Nodup → (∀ k ∈ deepKeys fuel ms, k ∉ seen) →
    (aggLF fuel seen nrm trl ms).nrm = (colLF fuel nrm trl ms).1 ∧
    (aggLF fuel seen nrm trl ms).trl = (colLF fuel nrm trl ms).2 ∧
    (aggLF fuel seen nrm trl ms).log.map Prod.fst = deepKeys fuel ms := by
  induction fuel with
  | zero =>
    intro seen nrm trl ms _ _
    simp [aggLF, colLF, deepKeys]
  | succ fuel ih =>
    intro seen nrm trl ms hnd hfr
    match ms with
    | [] => simp [aggLF, colLF, deepKeys]
    | m :: rest =>
      simp only [deepKeys] at hnd hfr
      obtain ⟨hAB, hC, hdAB⟩ := List.nodup_append.mp hnd
      obtain ⟨hA, hB, hdA⟩ := List.nodup_append.mp hAB
      have hm := markE_fresh seen m.edges hA
        (fun k hk => hfr k (List.mem_append_left _ (List.mem_append_left _ hk)))
      have hseen1 : (markE seen m.edges).seen =
          (levelKeys m.edges).reverse ++ seen := by
        rw [markE_seen, hm.2]; rfl
      simp only [aggLF, colLF]
      rw [hm.1]
      have hchild := ih (markE seen m.edges).seen FDeps.nil FDeps.nil
        (levelItems m.edges) hB (by
          intro k hk
          rw [hseen1]
          simp only [List.mem_append, List.mem_reverse, not_or]
          refine ⟨fun hka => hdA hka hk, ?_⟩
          exact hfr k (List.mem_append_left _ (List.mem_append_right _ hk)))
      have hseen2 : (aggLF fuel (markE seen m.edges).seen FDeps.nil FDeps.nil
            (levelItems m.edges)).seen =
          (deepKeys fuel (levelItems m.edges)).reverse ++
            ((levelKeys m.edges).reverse ++ seen) := by
        rw [aggLF_seen, hchild.2.2, hseen1]
      have frC : ∀ k ∈ deepKeys fuel rest,
          k ∉ (aggLF fuel (markE seen m.edges).seen FDeps.nil FDeps.nil
            (levelItems m.edges)).seen := by
        intro k hk
        rw [hseen2]
        simp only [List.mem_append, List.mem_reverse, not_or]
        refine ⟨fun hkb => hdAB (List.mem_append_right _ hkb) hk, fun hka =>
          hdAB (List.mem_append_left _ hka) hk, ?_⟩
        exact hfr k (List.mem_append_right _ hk)
      rw [hchild.1, hchild.2.1]
      refine ⟨(ih _ _ _ rest hC frC).1, (ih _ _ _ rest hC frC).2.1, ?_⟩
      simp only [List.map_append, hm.2, hchild.2.2, (ih _ _ _ rest hC frC).2.2]
      rfl

/-- On a graph whose identities are duplicate-free, the aggregated
dependency tree is exactly the pure collapse of the graph. -/
theorem getFundingInfo_collapse (g : GNode) (h : (graphKeys g).Nodup) :
    (getFundingInfo g).dependencies = collapseDeps g := by
  obtain ⟨hA, hD, hdis⟩ := List.nodup_append.mp h
  have hm := markE_fresh [] g.edges hA (by simp)
  simp only [getFundingInfo, collapseDeps]
  rw [hm.1]
  have hseen1 : (markE [] g.edges).seen = (levelKeys g.edges).reverse ++ [] := by
    rw [markE_seen, hm.2]; rfl
  have hc := aggLF_collapse (sizeM (levelItems g.edges)) (markE [] g.edges).seen
    FDeps.nil FDeps.nil (levelItems g.edges) hD (by
      intro k hk
      rw [hseen1]
      simp only [List.append_nil, List.mem_reverse]
      exact fun hka => hdis hka hk)
  rw [hc.1, hc.2.1]

/-! ## Facts about the renderer's association list and store -/

theorem lookupSeen_none_iff (u : Option String) :
    ∀ (l : List (Option String × Nat)),
    lookupSeen u l = none ↔ u ∉ l.map Prod.fst := by
  intro l
  induction l with
  | nil => simp [lookupSeen]
  | cons p r ih =>
    obtain ⟨u', i⟩ := p
    by_cases h : u' = u
    · subst h
      simp [lookupSeen]
    · simp [lookupSeen, h, ih, Ne.symm h]

theorem lookupSeen_mem {u : Option String} :
    ∀ {l : List (Option String × Nat)} {i : Nat},
    lookupSeen u l = some i → (u, i) ∈ l := by
  intro l
  induction l with
  | nil => intro i h; simp [lookupSeen] at h
  | cons p r ih =>
    intro i h
    obtain ⟨u', j⟩ := p
    simp only [lookupSeen] at h
    by_cases he : u' = u
    · rw [if_pos he] at h
      cases h
      subst he
      exact List.mem_cons_self _ _
    · rw [if_neg he] at h
      exact List.mem_cons_of_mem _ (ih h)

theorem assoc_key_unique {l : List (Option String × Nat)}
    (h : (l.map Prod.fst).Nodup) {u : Option String} {i j : Nat}
    (hi : (u, i) ∈ l) (hj : (u, j) ∈ l) : i = j := by
  induction l with
  | nil => simp at hi
  | cons p r ih =>
    simp only [List.map_cons, List.nodup_cons] at h
    rcases List.mem_cons.mp hi with h1 | h1 <;>
      rcases List.mem_cons.mp hj with h2 | h2
    · exact (Prod.mk.inj (h1.trans h2.symm)).2
    · exact absurd (List.mem_map_of_mem Prod.fst h2)
        (by rw [← h1] at h; exact h.1)
    · exact absurd (List.mem_map_of_mem Prod.fst h1)
        (by rw [← h2] at h; exact h.1)
    · exact ih h.2 h1 h2

theorem assoc_id_unique {l : List (Option String × Nat)}
    (h : (l.map Prod.snd).Nodup) {u u' : Option String} {i : Nat}
    (hi : (u, i) ∈ l) (hj : (u', i) ∈ l) : u = u' := by
  induction l with
  | nil => simp at hi
  | cons p r ih =>
    simp only [List.map_cons, List.nodup_cons] at h
    rcases List.mem_cons.mp hi with h1 | h1 <;>
      rcases List.mem_cons.mp hj with h2 | h2
    · exact (Prod.mk.inj (h1.trans h2.symm)).1
    · exact absurd (List.mem_map_of_mem Prod.snd h2)
        (by rw [← h1] at h; exact h.1)
    · exact absurd (List.mem_map_of_mem Prod.snd h1)
        (by rw [← h2] at h; exact h.1)
    · exact ih h.2 h1 h2

theorem set_self {α : Type _} :
    ∀ (l : List α) (i : Nat) (x : α), l.get? i = some x → l.set i x = l := by
  intro l
  induction l with
  | nil => intro i x h; simp at h
  | cons a r ih =>
    intro i x h
    match i with
    | 0 => simp_all
    | j + 1 =>
      simp only [List.get?] at h
      simp [List.set, ih j x h]

theorem flatten_set_perm :
    ∀ (l : List (List Nat)) (p : Nat) (ns : List Nat) (i : Nat),
    l.get? p = some ns →
    ((l.set p (ns ++ [i])).flatten).Perm (i :: l.flatten) := by
  intro l
  induction l with
  | nil => intro p ns i h; simp at h
  | cons a r ih =>
    intro p ns i h
    match p with
    | 0 =>
      simp only [List.get?, Option.some.injEq] at h
      subst h
      simp only [List.set, List.flatten_cons, List.append_assoc,
        List.singleton_append]
      exact List.perm_middle
    | q + 1 =>
      simp only [List.get?] at h
      simp only [List.set, List.flatten_cons]
      exact ((ih q ns i h).append_left a).trans List.perm_middle

theorem accLabel_append_fresh {u : Option String} {log : List LogE}
    (hu : u ∉ log.map LogE.key) (e : LogE) (he : e.key = u) :
    accLabel u (log ++ [e]) = some e.init := by
  have hf : log.filter (fun x => x.key == u) = [] := by
    refine List.filter_eq_nil.2 (fun a ha hba => ?_)
    exact hu (List.mem_map.2 ⟨a, ha, by simpa using hba⟩)
  unfold accLabel
  rw [List.filter_append, hf]
  simp [he]

theorem accLabel_append_more {u : Option String} {log : List LogE}
    {L : String} (hL : accLabel u log = some L) (e : LogE) (he : e.key = u) :
    accLabel u (log ++ [e]) = some (L ++ ", " ++ e.ref) := by
  unfold accLabel at hL ⊢
  rw [List.filter_append]
  cases hf : log.filter (fun x => x.key == u) with
  | nil => rw [hf] at hL; simp at hL
  | cons f fs =>
    rw [hf] at hL
    simp only [Option.some.injEq] at hL
    have h1 : [e].filter (fun x => x.key == u) = [e] := by simp [he]
    rw [h1]
    simp only [List.cons_append, Option.some.injEq]
    rw [List.foldl_append]
    simp [hL]

theorem accLabel_append_other {u' : Option String} {log : List LogE}
    {e : LogE} (hne : e.key ≠ u') :
    accLabel u' (log ++ [e]) = accLabel u' log := by
  unfold accLabel
  rw [List.filter_append]
  have h1 : [e].filter (fun x => x.key == u') = [] := by simp [hne]
  rw [h1, List.append_nil]

theorem labelAt_append {store : List RItem} {j : Nat} (x : RItem)
    (hj : j < store.length) : labelAt (store ++ [x]) j = labelAt store j := by
  unfold labelAt
  rw [List.get?_append hj]

theorem labelAt_last (store : List RItem) (x : RItem) :
    labelAt (store ++ [x]) store.length = some x.label := by
  unfold labelAt
  rw [List.get?_concat_length]
  rfl

theorem labelAt_set_ne {store : List RItem} {i j : Nat} (x : RItem)
    (h : i ≠ j) : labelAt (store.set i x) j = labelAt store j := by
  unfold labelAt
  rw [List.get?_set_ne _ _ h]

theorem labelAt_set_self {store : List RItem} {i : Nat} (x : RItem)
    (h : i < store.length) : labelAt (store.set i x) i = some x.label := by
  unfold labelAt
  rw [List.get?_set_eq_of_lt x h]
  rfl

theorem attachTo_eq {store : List RItem} {p : Nat} {it : RItem}
    (h : store.get? p = some it) (i : Nat) :
    attachTo store p i = store.set p ⟨it.label, it.nodes ++ [i]⟩ := by
  unfold attachTo
  rw [h]

theorem appendRef_eq {store : List RItem} {i : Nat} {it : RItem}
    (h : store.get? i = some it) (ref : String) :
    appendRef store i ref = store.set i ⟨it.label ++ ", " ++ ref, it.nodes⟩ := by
  unfold appendRef
  rw [h]

theorem INV.id_bounds {s : PHState} (h : INV s) {u : Option String}
    {i : Nat} (hm : (u, i) ∈ s.seen) : 1 ≤ i ∧ i < s.store.length := by
  have hmem : i ∈ s.seen.map Prod.snd := List.mem_map.2 ⟨(u, i), hm, rfl⟩
  rw [h.ids, List.mem_range'_1] at hmem
  rw [h.slen]
  omega

theorem INV.snd_nodup {s : PHState} (h : INV s) :
    (s.seen.map Prod.snd).Nodup := by
  rw [h.ids]
  exact List.nodup_range' _ _

theorem visitItem_merge {uni : Bool} {s : PHState} {n : FTree} {i : Nat}
    (hl : lookupSeen (fundingUrl n.funding) s.seen = some i) :
    visitItem uni s n =
      (⟨appendRef s.store i (getPrintableName n.name n.version), s.seen,
        s.prev, s.parent,
        s.log ++ [⟨fundingUrl n.funding, getPrintableName n.name n.version,
          visitLabel uni n⟩]⟩, i) := by
  simp only [visitItem, hl]

theorem visitItem_create {uni : Bool} {s : PHState} {n : FTree}
    (hl : lookupSeen (fundingUrl n.funding) s.seen = none) :
    visitItem uni s n =
      (⟨attachTo (s.store ++ [⟨visitLabel uni n, []⟩]) s.parent s.store.length,
        s.seen ++ [(fundingUrl n.funding, s.store.length)], s.prev, s.parent,
        s.log ++ [⟨fundingUrl n.funding, getPrintableName n.name n.version,
          visitLabel uni n⟩]⟩, s.store.length) := by
  simp only [visitItem, hl]

theorem visit_inv (uni : Bool) (s : PHState) (n : FTree) (h : INV s) :
    INV (visitItem uni s n).1 ∧
    (visitItem uni s n).2 < (visitItem uni s n).1.store.length := by
  cases hl : lookupSeen (fundingUrl n.funding) s.seen with
  | some i =>
    rw [visitItem_merge hl]
    dsimp only
    have hmem := lookupSeen_mem hl
    have hb := h.id_bounds hmem
    have hit : s.store.get? i = some (s.store.get ⟨i, hb.2⟩) :=
      List.get?_eq_get hb.2
    have hstore : appendRef s.store i (getPrintableName n.name n.version) =
        s.store.set i ⟨(s.store.get ⟨i, hb.2⟩).label ++ ", " ++
          getPrintableName n.name n.version, (s.store.get ⟨i, hb.2⟩).nodes⟩ :=
      appendRef_eq hit _
    have hlen : (appendRef s.store i (getPrintableName n.name n.version)).length =
        s.store.length := by rw [hstore, List.length_set]
    refine ⟨⟨?_, h.ids, h.keys, ?_, ?_, ?_, ?_⟩, ?_⟩ <;> dsimp only
    · rw [hlen]; exact h.slen
    · rw [hlen]; exact h.par
    · have hsame : allAttached (appendRef s.store i (getPrintableName n.name n.version)) =
          allAttached s.store := by
        rw [hstore]
        unfold allAttached
        rw [List.map_set]
        congr 1
        exact set_self _ _ _ (by rw [List.get?_map, hit]; rfl)
      rw [hsame]; exact h.att
    · rintro ⟨u', j⟩ hp
      by_cases hj : j = i
      · subst hj
        have hu' : u' = fundingUrl n.funding :=
          assoc_id_unique h.snd_nodup hp hmem
        subst hu'
        have hlab : labelAt s.store j = some (s.store.get ⟨j, hb.2⟩).label := by
          unfold labelAt; rw [hit]; rfl
        have hacc : accLabel (fundingUrl n.funding) s.log =
            some (s.store.get ⟨j, hb.2⟩).label :=
          (h.lab _ hp).symm.trans hlab
        rw [hstore, labelAt_set_self _ hb.2, accLabel_append_more hacc _ rfl]
      · have hu' : u' ≠ fundingUrl n.funding := fun he =>
          hj (assoc_key_unique h.keys hp (he ▸ hmem))
        rw [hstore, labelAt_set_ne _ (Ne.symm hj)]
        rw [accLabel_append_other (Ne.symm hu')]
        exact h.lab _ hp
    · intro u''
      constructor
      · rintro ⟨j, hj⟩
        rw [List.map_append]
        exact List.mem_append_left _ ((h.kiff u'').1 ⟨j, hj⟩)
      · intro hm
        rw [List.map_append] at hm
        rcases List.mem_append.mp hm with hm1 | hm1
        · exact (h.kiff u'').2 hm1
        · simp only [List.map_cons, List.map_nil, List.mem_singleton] at hm1
          rcases hm1 with rfl
          exact ⟨i, hmem⟩
    · simpa [hlen] using hb.2
  | none =>
    rw [visitItem_create hl]
    dsimp only
    have hu : fundingUrl n.funding ∉ s.seen.map Prod.fst :=
      (lookupSeen_none_iff _ _).mp hl
    have hpar := h.par
    have hpit : s.store.get? s.parent = some (s.store.get ⟨s.parent, hpar⟩) :=
      List.get?_eq_get hpar
    have hpit2 : (s.store ++ [RItem.mk (visitLabel uni n) []]).get? s.parent =
        some (s.store.get ⟨s.parent, hpar⟩) := by
      rw [List.get?_append hpar]; exact hpit
    have hstore : attachTo (s.store ++ [RItem.mk (visitLabel uni n) []]) s.parent
        s.store.length =
        (s.store ++ [RItem.mk (visitLabel uni n) []]).set s.parent
          ⟨(s.store.get ⟨s.parent, hpar⟩).label,
           (s.store.get ⟨s.parent, hpar⟩).nodes ++ [s.store.length]⟩ :=
      attachTo_eq hpit2 _
    have hlen : (attachTo (s.store ++ [RItem.mk (visitLabel uni n) []]) s.parent
        s.store.length).length = s.store.length + 1 := by
      rw [hstore, List.length_set, List.length_append]
      rfl
    have hfreshlog : fundingUrl n.funding ∉ s.log.map LogE.key := fun hm =>
      hu (by
        obtain ⟨j, hj⟩ := (h.kiff _).2 hm
        exact List.mem_map.2 ⟨_, hj, rfl⟩)
    refine ⟨⟨?_, ?_, ?_, ?_, ?_, ?_, ?_⟩, ?_⟩ <;> dsimp only
    · rw [hlen, h.slen]
      simp [List.length_append]
    · rw [List.map_append, h.ids, h.slen]
      simp only [List.map_cons, List.map_nil, List.length_append,
        List.length_cons, List.length_nil]
      rw [List.range'_concat]
      simp [h.slen, Nat.add_comm]
    · rw [List.map_append, List.nodup_append]
      refine ⟨h.keys, by simp, ?_⟩
      intro a ha
      simp only [List.map_cons, List.map_nil, List.mem_singleton]
      exact fun he => hu (he ▸ ha)
    · rw [hlen]
      omega
    · have hmap : (attachTo (s.store ++ [⟨visitLabel uni n, []⟩]) s.parent
          s.store.length).map RItem.nodes =
          ((s.store.map RItem.nodes) ++ [[]]).set s.parent
            ((s.store.get ⟨s.parent, hpar⟩).nodes ++ [s.store.length]) := by
        rw [hstore, List.map_set, List.map_append]
        rfl
      have hget : ((s.store.map RItem.nodes) ++ [[]]).get? s.parent =
          some (s.store.get ⟨s.parent, hpar⟩).nodes := by
        rw [List.get?_append (by simpa using hpar), List.get?_map, hpit]
        rfl
      unfold allAttached
      rw [hmap]
      have hperm := flatten_set_perm _ s.parent _ s.store.length hget
      refine hperm.trans ?_
      have : ((s.store.map RItem.nodes) ++ [[]]).flatten =
          allAttached s.store := by
        unfold allAttached
        simp
      rw [this]
      rw [List.length_append]
      simp only [List.length_cons, List.length_nil]
      rw [List.range'_concat]
      refine (h.att.cons s.store.length).trans ?_
      have hnid : s.store.length = 1 + s.seen.length := by rw [h.slen]; omega
      simp only [Nat.one_mul]
      rw [← hnid]
      exact (List.perm_append_singleton _ _).symm
    · rintro ⟨u', j⟩ hp
      rcases List.mem_append.mp hp with hp1 | hp1
      · have hbj := h.id_bounds hp1
        have hlabeq : labelAt (attachTo (s.store ++ [RItem.mk (visitLabel uni n) []])
            s.parent s.store.length) j = labelAt s.store j := by
          rw [hstore]
          by_cases hjp : s.parent = j
          · subst hjp
            rw [labelAt_set_self _ (by
                simp only [List.length_append, List.length_cons, List.length_nil]
                omega)]
            unfold labelAt
            rw [hpit]
            rfl
          · rw [labelAt_set_ne _ hjp]
            exact labelAt_append _ hbj.2
        rw [hlabeq]
        have hu' : u' ≠ fundingUrl n.funding := fun he =>
          hu (he ▸ List.mem_map.2 ⟨_, hp1, rfl⟩)
        rw [accLabel_append_other (Ne.symm hu')]
        exact h.lab _ hp1
      · simp only [List.mem_singleton, Prod.mk.injEq] at hp1
        obtain ⟨he1, he2⟩ := hp1
        subst he1; subst he2
        have : labelAt (attachTo (s.store ++ [RItem.mk (visitLabel uni n) []])
            s.parent s.store.length) s.store.length =
            some (visitLabel uni n) := by
          rw [hstore, labelAt_set_ne _ (by omega)]
          exact labelAt_last _ _
        rw [this, accLabel_append_fresh hfreshlog _ rfl]
    · intro u''
      constructor
      · rintro ⟨j, hj⟩
        rw [List.map_append]
        rcases List.mem_append.mp hj with hj1 | hj1
        · exact List.mem_append_left _ ((h.kiff u'').1 ⟨j, hj1⟩)
        · simp only [List.mem_singleton, Prod.mk.injEq] at hj1
          simp [hj1.1]
      · intro hm
        rw [List.map_append] at hm
        rcases List.mem_append.mp hm with hm1 | hm1
        · obtain ⟨j, hj⟩ := (h.kiff u'').2 hm1
          exact ⟨j, List.mem_append_left _ hj⟩
        · simp only [List.map_cons, List.map_nil, List.mem_singleton] at hm1
          rcases hm1 with rfl
          exact ⟨s.store.length, List.mem_append_right _ (by simp)⟩
    · rw [hlen]
      omega

theorem scope_inv {s : PHState} (n : FTree) {rid : Nat} (h : INV s)
    (hr : rid < s.store.length) : INV (scopeUpdate s n rid) := by
  unfold scopeUpdate
  cases s.prev.deps with
  | none => exact h
  | some d =>
    dsimp only
    by_cases hk : FDeps.hasKey d (n.name.getD "undefined") = true
    · rw [if_pos hk]; exact h
    · rw [if_neg hk]
      exact ⟨h.slen, h.ids, h.keys, hr, h.att, h.lab, h.kiff⟩

theorem stepState_inv (uni : Bool) (s : PHState) (n : FTree) (h : INV s) :
    INV (stepState uni s n) := by
  unfold stepState
  obtain ⟨h1, h2⟩ := visit_inv uni s n h
  exact scope_inv n h1 h2

theorem bfsF_inv (uni : Bool) :
    ∀ (fuel : Nat) (q : List FTree) (s : PHState), INV s →
    INV (bfsF uni fuel s q) := by
  intro fuel
  induction fuel with
  | zero => intro q s h; simpa [bfsF] using h
  | succ fuel ih =>
    intro q s h
    match q with
    | [] => simpa [bfsF] using h
    | n :: rest =>
      simp only [bfsF]
      exact ih _ _ (stepState_inv uni s n h)

theorem inv_init (fi : FundingInfo) :
    INV ⟨[⟨"", []⟩], [], rootTree fi, 0, []⟩ := by
  refine ⟨rfl, rfl, List.nodup_nil, by simp, ?_, ?_, ?_⟩
  · simp [allAttached]
  · rintro p hp
    simp at hp
  · intro u
    simp

theorem printHumanState_inv (fi : FundingInfo) (uni : Bool) :
    INV (printHumanState fi uni) := by
  unfold printHumanState
  exact bfsF_inv uni _ _ _ (inv_init fi)

/-! ## Every package of the tree is visited exactly once -/

theorem sizeFT_childNode (k : String) (t : FTree) :
    sizeFT (childNode k t) = sizeFT t := by
  cases t with
  | mk a b c d => cases d <;> rfl

theorem sizeQ_childrenOfD (d : FDeps) : sizeQ (childrenOfD d) = sizeFD d := by
  induction d using childrenOfD.induct with
  | case1 => rfl
  | case2 k t r ih =>
    simp only [childrenOfD, sizeQ, sizeFD, sizeFT_childNode, ih]

theorem sizeQ_childrenOf (n : FTree) : sizeQ (childrenOf n) + 1 = sizeFT n := by
  cases n with
  | mk a b c d =>
    cases d with
    | none => rfl
    | some dd =>
      show sizeQ (childrenOfD dd) + 1 = sizeFT (FTree.mk a b c (some dd))
      rw [sizeQ_childrenOfD]
      show sizeFD dd + 1 = 1 + sizeFD dd
      omega

theorem sizeFT_pos (n : FTree) : 1 ≤ sizeFT n := by
  have := sizeQ_childrenOf n
  omega

theorem sizeQ_append (a b : List FTree) :
    sizeQ (a ++ b) = sizeQ a + sizeQ b := by
  induction a with
  | nil => simp [sizeQ]
  | cons t r ih =>
    show sizeQ (t :: (r ++ b)) = sizeQ (t :: r) + sizeQ b
    rw [sizeQ, sizeQ, ih]
    omega

theorem scopeUpdate_log (s : PHState) (n : FTree) (rid : Nat) :
    (scopeUpdate s n rid).log = s.log := by
  unfold scopeUpdate
  cases s.prev.deps with
  | none => rfl
  | some d =>
    dsimp only
    by_cases hk : FDeps.hasKey d (n.name.getD "undefined") = true
    · rw [if_pos hk]
    · rw [if_neg hk]

theorem stepState_log_len (uni : Bool) (s : PHState) (n : FTree) :
    (stepState uni s n).log.length = s.log.length + 1 := by
  unfold stepState
  rw [scopeUpdate_log]
  cases hl : lookupSeen (fundingUrl n.funding) s.seen with
  | some i => rw [visitItem_merge hl]; simp
  | none => rw [visitItem_create hl]; simp

theorem bfsF_log_len (uni : Bool) :
    ∀ (fuel : Nat) (q : List FTree) (s : PHState), sizeQ q ≤ fuel →
    (bfsF uni fuel s q).log.length = s.log.length + sizeQ q := by
  intro fuel
  induction fuel with
  | zero =>
    intro q s h
    match q with
    | [] => simp [bfsF, sizeQ]
    | n :: rest =>
      exfalso
      have h1 := sizeFT_pos n
      simp only [sizeQ] at h
      omega
  | succ fuel ih =>
    intro q s h
    match q with
    | [] => simp [bfsF, sizeQ]
    | n :: rest =>
      simp only [bfsF]
      have hsz : sizeQ (rest ++ childrenOf n) ≤ fuel := by
        rw [sizeQ_append]
        have h1 := sizeQ_childrenOf n
        simp only [sizeQ] at h
        omega
      rw [ih _ _ hsz, stepState_log_len, sizeQ_append]
      have h1 := sizeQ_childrenOf n
      simp only [sizeQ]
      omega

/-- Every package of the rendered tree is visited exactly once: the
visit log has one entry per tree node. -/
theorem printHumanState_log_len (fi : FundingInfo) (uni : Bool) :
    (printHumanState fi uni).log.length = sizeFT (rootTree fi) := by
  unfold printHumanState
  rw [bfsF_log_len uni _ _ _ (le_refl _)]
  simp [sizeQ]

theorem ofList_retrieve_toList (xs : List FundVal) :
    (retrieveFundingL (FundList.ofList xs)).toList = xs.map retrieveFunding := by
  induction xs with
  | nil => rfl
  | cons v r ih =>
    show retrieveFunding v :: (retrieveFundingL (FundList.ofList r)).toList =
      retrieveFunding v :: r.map retrieveFunding
    rw [ih]

/-! ## The claims -/

/-- C1, counterexample: the claim counts the root among the funded
identities, but a root with valid funding and no dependencies yields
`length = 0` — the aggregator surfaces the root's funding without ever
counting it (exactly as the shipped test `top-level funding info`
expects), so `length` differs from the root-inclusive count the claim
predicts (here `0 + 1 = 1`). -/
theorem c1_counterexample :
    (getFundingInfo rootFundedG).funding.isSome = true ∧
    fundedIds rootFundedG = [] ∧
    ¬((getFundingInfo rootFundedG).length =
      (fundedIds rootFundedG).toFinset.card +
        (if (getFundingInfo rootFundedG).funding.isSome then 1 else 0)) := by
  refine ⟨rfl, rfl, ?_⟩
  decide

/-- C1, amended: for every graph, `length` equals the number of
distinct (name, version) identities among the dependency packages whose
first-marked occurrence in the dedup traversal carries at least one
valid funding entry; the root's own funding is surfaced at the top
level but never counted.  An identity reachable via multiple paths is
counted exactly once (the count is the cardinality of a set of
identities), and two packages with the same name but different versions
count as two — in the two-version diamond the count is 2, while the
same-identity diamond counts 1. -/
theorem c1_theorem :
    (∀ g : GNode, (getFundingInfo g).length = (fundedIds g).toFinset.card) ∧
    (getFundingInfo versionDiamondG).length = 2 ∧
    (getFundingInfo sameDiamondG).length = 1 :=
  ⟨fun g => getFundingInfo_length_card g, rfl, rfl⟩

/-- C2, counterexample: in `dupReparentG` the package `u` has no valid
funding entry and a funded descendant `x@1.0.0`, so the claim requires
`x` to appear directly in the dependencies map of `u`'s nearest
retained ancestor — the root.  But `x@1.0.0` was already visited under
`a`, so the dedup leaves `u` with nothing and the root's map has no key
`x`: the funded descendant of the pruned chain is *not* re-attached
under the nearest retained ancestor. -/
theorem c2_counterexample :
    FDeps.keys (getFundingInfo dupReparentG).dependencies = ["a"] ∧
    FDeps.hasKey (getFundingInfo dupReparentG).dependencies "x" = false ∧
    (getFundingInfo dupReparentG).length = 2 ∧
    (fundingOfDecl (some (.obj eHttpY))).isSome = true :=
  ⟨rfl, rfl, rfl, rfl⟩

/-- C2, amended: (a) a package with no valid funding entry appears
nowhere in aggregator output — every node of the output tree carries a
funding value; (b) on graphs in which every (name, version) identity
occurs at most once, the output tree is exactly the pure collapse
`collapseDeps`: each funded package is attached directly under its
nearest retained ancestor with unfunded chains spliced out (funded
children first, collapsed descendants assigned after them).  When an
identity is reachable via several paths, a funded descendant of a
pruned chain appears only at its first-visited position, not under the
chain's nearest retained ancestor. -/
theorem c2_theorem :
    (∀ g : GNode, allFD (getFundingInfo g).dependencies = true) ∧
    (∀ g : GNode, (graphKeys g).Nodup →
      (getFundingInfo g).dependencies = collapseDeps g) :=
  ⟨fun g => getFundingInfo_allFD g, fun g h => getFundingInfo_collapse g h⟩

/-- C2, witness: the three-level chain in which only the leaf is
funded is duplicate-free; the theorem applies and the collapsed output
attaches the leaf directly under the root. -/
theorem c2_witness :
    (graphKeys chainG).Nodup ∧
    (getFundingInfo chainG).dependencies = collapseDeps chainG ∧
    collapseDeps chainG =
      .cons "leaf" (.mk none (some "1.0.0") (some (.obj eHttpX)) none) .nil :=
  ⟨by decide, c2_theorem.2 chainG (by decide), rfl⟩

/-- C3, counterexample: in the aggregated tree of `arrGroupG` the
packages `a` and `b` both carry a funding entry with the identical
non-empty url `http://x.example.com` (`a` as its single entry, `b` as
the first element of its entry array).  The renderer groups by
`funding.url`, which is absent for array-valued funding, so `b` is
merged with the url-less root node (`project, b@1.0.0`) while `a`
receives its own url node: the two packages appear on two different
visual nodes, and no single label carries both references. -/
theorem c3_counterexample :
    fundingUrl (some (.obj eHttpX)) = some "http://x.example.com" ∧
    fundingUrl (fundingOfDecl
      (some (.arr (.cons (.obj eHttpX) (.cons (.obj eHttpY) .nil))))) = none ∧
    labelAt (printHumanState (getFundingInfo arrGroupG) true).store 1 =
      some "project, b@1.0.0" ∧
    labelAt (printHumanState (getFundingInfo arrGroupG) true).store 2 =
      some "http://x.example.com\n└── a@1.0.0" ∧
    ((printHumanState (getFundingInfo arrGroupG) true).store.all fun it =>
      !(strEndsWith it.label "a@1.0.0" && strEndsWith it.label "b@1.0.0")) = true :=
  ⟨rfl, rfl, rfl, rfl, rfl⟩

/-- C3, amended: in the human-rendered output, packages are grouped by
the `url` property of their `funding` value (absent for unfunded
packages and for array-valued funding).  For every aggregated tree and
either connector style: (a) each grouping key is bound to exactly one
visual node; (b) no item is ever attached twice anywhere in the
rendered tree, so no second node for a url ever appears; (c) the label
of the node bound to a key is exactly the initial label of the first
package visited with that key in breadth-first order, extended by a
`, `-joined reference for each later package with that key, in visit
order; (d) every visited package lands on the (unique) node of its
key; and (e) every package of the tree is visited exactly once. -/
theorem c3_theorem (fi : FundingInfo) (uni : Bool) :
    (∀ (u : Option String) (i j : Nat),
      (u, i) ∈ (printHumanState fi uni).seen →
      (u, j) ∈ (printHumanState fi uni).seen → i = j) ∧
    (∀ i : Nat,
      (allAttached (printHumanState fi uni).store).count i ≤ 1) ∧
    (∀ (u : Option String) (i : Nat),
      (u, i) ∈ (printHumanState fi uni).seen →
      labelAt (printHumanState fi uni).store i =
        accLabel u (printHumanState fi uni).log) ∧
    (∀ e ∈ (printHumanState fi uni).log,
      ∃ i, (e.key, i) ∈ (printHumanState fi uni).seen) ∧
    (printHumanState fi uni).log.length = sizeFT (rootTree fi) := by
  have h := printHumanState_inv fi uni
  refine ⟨?_, ?_, ?_, ?_, printHumanState_log_len fi uni⟩
  · intro u i j hi hj
    exact assoc_key_unique h.keys hi hj
  · intro i
    rw [h.att.count_eq]
    exact List.nodup_iff_count_le_one.mp (List.nodup_range' _ _) i
  · intro u i hm
    exact h.lab (u, i) hm
  · intro e he
    exact (h.kiff e.key).2 (List.mem_map.2 ⟨e, he, rfl⟩)

/-- C3, witness: in `shareUrlG` the packages `p` and `q` share the
single url `http://x.example.com`; the bound node (id 2) carries the
accumulated label, which evaluates to the comma-joined line. -/
theorem c3_witness :
    labelAt (printHumanState (getFundingInfo shareUrlG) true).store 2 =
      accLabel (some "http://x.example.com")
        (printHumanState (getFundingInfo shareUrlG) true).log ∧
    accLabel (some "http://x.example.com")
      (printHumanState (getFundingInfo shareUrlG) true).log =
      some "http://x.example.com\n└── p@1.0.0, q@1.0.0" :=
  ⟨(c3_theorem (getFundingInfo shareUrlG) true).2.2.1
      (some "http://x.example.com") 2 (by decide), rfl⟩

/-- C4, counterexample: a resolved package with zero valid funding
entries and no supplied selector does not signal the "no funding
available" failure — `openFundingUrl` takes the listing branch, prints
an empty enumeration plus the usage hint, and returns normally. -/
theorem c4_counterexample :
    fundOpen none [] = .outcome (.listed []) ∧
    FundResult.outcome (.listed []) ≠ FundResult.outcome .noFund ∧
    FundResult.outcome (.listed []) ≠ FundResult.errFundNumber := by
  refine ⟨rfl, ?_, ?_⟩ <;> decide

/-- C4, amended: the targeted-open path has two distinct structured
failure kinds, but they do not partition as the claim states.  (a) With
a supplied positive selector, both "zero valid entries" and "selector
out of range" signal the same `ENOFUND` failure (unless exactly one
entry exists).  (b) With no selector and zero valid entries, the
command prints an empty enumeration and a usage hint — no failure.
(c) A selector string that parses to a number below 1 is rejected with
the distinct `EFUNDNUMBER` failure, as is (d) a string that does not
parse at all — (e) except the literal `"NaN"`, which passes validation
and behaves like an absent selector.  (f) With exactly one valid entry,
an out-of-range selector causes an unstructured out-of-bounds access
instead of either failure. -/
theorem c4_theorem :
    (∀ (vs : List Entry) (n : Nat), 1 ≤ n → vs.length ≠ 1 → vs.length < n →
      openFundingUrl vs (some n) = .noFund) ∧
    openFundingUrl [] none = .listed [] ∧
    (∀ (s : String) (m : Int), jsParseInt s = some m → m < 1 →
      fundWhichCheck (some s) = .errFundNumber) ∧
    (∀ s : String, jsParseInt s = none → s ≠ "NaN" →
      fundWhichCheck (some s) = .errFundNumber) ∧
    fundWhichCheck (some "NaN") = .ok none ∧
    (∀ (e : Entry) (n : Nat), 2 ≤ n →
      openFundingUrl [e] (some n) = .badAccess) := by
  refine ⟨?_, rfl, ?_, ?_, rfl, ?_⟩
  · intro vs n h1 h2 h3
    unfold openFundingUrl
    have hr : ¬(vs.length == 1 || (decide (0 < n) && decide (n ≤ vs.length))) = true := by
      simp only [Bool.or_eq_true, beq_iff_eq, Bool.and_eq_true, decide_eq_true_eq]
      push_neg
      exact ⟨h2, fun _ => by omega⟩
    rw [if_neg hr]
    have hs : (!(match some n with
        | some n => decide (1 ≤ n)
        | none => false)) = false := by
      simp only [decide_eq_true_eq]
      simpa using h1
    rw [hs]
    simp
  · intro s m hp hm
    have hs : s ≠ "" := by
      intro h
      subst h
      rw [show jsParseInt "" = none from rfl] at hp
      cases hp
    simp only [fundWhichCheck]
    rw [if_neg hs, hp]
    have hni : ¬(intToStr m = s ∧ 1 ≤ m) := fun hc => absurd hc.2 (by omega)
    dsimp only
    rw [if_neg hni]
  · intro s hp hn
    by_cases hs : s = ""
    · subst hs
      rfl
    · simp only [fundWhichCheck]
      rw [if_neg hs, hp]
      dsimp only
      rw [if_neg hn]
  · intro e n h2
    simp only [openFundingUrl]
    have hg : (([e] : List Entry).length == 1
        || (decide (0 < n) && decide (n ≤ ([e] : List Entry).length))) = true := by
      simp
    rw [if_pos hg]
    have hidx : (if n = 0 then (0 : Nat) else n - 1) = n - 1 := if_neg (by omega)
    rw [hidx]
    have hnone : ([e] : List Entry).get? (n - 1) = none := by
      rw [List.get?_eq_none]
      simp only [List.length_singleton]
      omega
    rw [hnone]

/-- C4, witness: two valid entries and selector 5 — out of range with
a supplied selector signals `ENOFUND`. -/
theorem c4_witness :
    openFundingUrl [⟨some "http://a.example.com", none, []⟩,
      ⟨some "http://b.example.com", none, []⟩] (some 5) = .noFund :=
  c4_theorem.1 _ 5 (by decide) (by decide) (by decide)

/-- C5, counterexample: the claim says `isValid` holds exactly for
objects whose `url` is a non-empty string, but the entry
`{ type: 'foo', url: 'git://example.git' }` — a non-empty string url —
is invalid (the shipped test `missing fund nested items tree` relies on
exactly this entry being discarded). -/
theorem c5_counterexample :
    eGit.url = some "git://example.git" ∧
    "git://example.git" ≠ "" ∧
    validFundingField (.obj eGit) = false := by
  refine ⟨rfl, ?_, rfl⟩
  decide

/-- C5, amended: normalization behaves exactly as claimed — absent
stays absent, a string becomes `{ url }`, an object passes through with
all fields (including unrecognized ones) preserved, and an array maps
normalization elementwise in order with duplicates preserved; entries
lacking `url` are kept by normalization and excluded by `isValid`.  But
`isValid` requires more than a non-empty string: the url must carry an
`http`/`https` scheme (in particular it is always non-empty). -/
theorem c5_theorem :
    retrieveFundingO none = none ∧
    (∀ s : String, retrieveFunding (.str s) = .obj ⟨some s, none, []⟩) ∧
    (∀ e : Entry, retrieveFunding (.obj e) = .obj e) ∧
    (∀ xs : List FundVal,
      (retrieveFundingL (FundList.ofList xs)).toList = xs.map retrieveFunding) ∧
    (∀ e : Entry, validFundingField (.obj e) = true ↔
      ∃ u, e.url = some u ∧ isHttpUrl u = true) ∧
    (∀ u : String, isHttpUrl u = true → u ≠ "") ∧
    (∀ (t : Option String) (ex : List (String × String)),
      retrieveFunding (.obj ⟨none, t, ex⟩) = .obj ⟨none, t, ex⟩ ∧
      validFundingField (.obj ⟨none, t, ex⟩) = false) := by
  refine ⟨rfl, fun s => rfl, fun e => rfl, ofList_retrieve_toList, ?_, ?_, ?_⟩
  · intro e
    constructor
    · intro hv
      simp only [validFundingField] at hv
      cases hu : e.url with
      | some u =>
        rw [hu] at hv
        exact ⟨u, rfl, hv⟩
      | none =>
        rw [hu] at hv
        cases hv
    · rintro ⟨u, hu, hv⟩
      simp only [validFundingField]
      rw [hu]
      exact hv
  · intro u hu hne
    subst hne
    exact absurd hu (by decide)
  · intro t ex
    exact ⟨rfl, rfl⟩

/-- C5, witness: the canonical https url is accepted and non-empty. -/
theorem c5_witness :
    "https://example.com" ≠ "" :=
  c5_theorem.2.2.2.2.2.1 "https://example.com" (by decide)

/-- C6: on a package with exactly two valid funding entries,
selector 1 opens the first entry, selector 3 signals the out-of-range
(`ENOFUND`) failure, and an absent selector lists both entries with
1-based indices 1 and 2 (followed by the usage hint) and opens
nothing. -/
theorem c6_theorem (e1 e2 : Entry) :
    openFundingUrl [e1, e2] (some 1) = .opened e1.type e1.url ∧
    openFundingUrl [e1, e2] (some 3) = .noFund ∧
    openFundingUrl [e1, e2] none =
      .listed [(1, e1.type, e1.url), (2, e2.type, e2.url)] :=
  ⟨rfl, rfl, rfl⟩

/-- C7: count-only aggregation produces exactly the `length` of the
full-tree aggregation, on every graph. -/
theorem c7_theorem (g : GNode) :
    getFundingLength g = (getFundingInfo g).length :=
  getFundingLength_eq g

/-- C8: the empty graph aggregates to
`{ name: null, dependencies: {}, length: 0 }`, and a root without a
name but with a path surfaces the path as the top-level name. -/
theorem c8_theorem :
    getFundingInfo (.mk none none none .nil) = ⟨none, none, none, .nil, 0⟩ ∧
    (∀ (p : String) (pk : Option Pkg) (es : GEdges),
      (getFundingInfo (.mk none (some p) pk es)).name = some p) :=
  ⟨rfl, fun _ _ _ => rfl⟩

/-- C9: an invocation's output depends only on the graph (and the
connector option), never on the process heap left by earlier
invocations — the visited set and the renderer's url map are created
fresh per call — and invoking twice in a row yields identical
outputs. -/
theorem c9_theorem (h h' : ProcHeap) (g : GNode) (uni : Bool) :
    (fundInvoke h g uni).1 = (fundInvoke h' g uni).1 ∧
    (fundInvoke ((fundInvoke h g uni).2) g uni).1 = (fundInvoke h g uni).1 :=
  ⟨rfl, rfl⟩

/-- C10: with exactly one valid funding entry, every supplied positive
selector takes the entry-opening branch and accesses index `n - 1` of
the single-element list; for `n > 1` the access is out of bounds
(`badAccess`, the destructuring TypeError) and no `ENOFUND` failure is
signalled. -/
theorem c10_theorem (e : Entry) (n : Nat) (h1 : 1 ≤ n) :
    openFundingUrl [e] (some n) = openBranch [e] (n - 1) ∧
    (2 ≤ n → openFundingUrl [e] (some n) = .badAccess ∧
      openFundingUrl [e] (some n) ≠ .noFund) := by
  have hbranch : openFundingUrl [e] (some n) = openBranch [e] (n - 1) := by
    simp only [openFundingUrl, openBranch]
    have hg : (([e] : List Entry).length == 1
        || (decide (0 < n) && decide (n ≤ ([e] : List Entry).length))) = true := by
      simp
    rw [if_pos hg]
    have hidx : (if n = 0 then (0 : Nat) else n - 1) = n - 1 := if_neg (by omega)
    rw [hidx]
  refine ⟨hbranch, fun h2 => ?_⟩
  have hnone : ([e] : List Entry).get? (n - 1) = none := by
    rw [List.get?_eq_none]
    simp only [List.length_singleton]
    omega
  have hbad : openFundingUrl [e] (some n) = .badAccess := by
    rw [hbranch]
    simp only [openBranch]
    rw [hnone]
  exact ⟨hbad, by rw [hbad]; exact fun hc => by cases hc⟩

/-- C10, witness: one entry, selector 2 — the branch is taken, the
access is out of bounds, and the result is the unstructured
`badAccess`, not `ENOFUND`. -/
theorem c10_witness :
    openFundingUrl [⟨some "http://w.example.com", none, []⟩] (some 2) =
      .badAccess :=
  ((c10_theorem ⟨some "http://w.example.com", none, []⟩ 2 (by decide)).2
    (by decide)).1

end Fund

